import Mathlib

/-
Verification of the Greaseweazle SCP image codec (scripts/greaseweazle/image/scp.py)
and the master-track / PLL decoder (scripts/greaseweazle/track.py).

Byte strings are modelled as `List ℕ` (each entry a byte value, 0..255).
Python floats are modelled as rationals.  Fallible operations (struct.unpack
on a short buffer, error.check, uncaught IndexError / StopIteration /
AssertionError / ValueError) are modelled with `Except String`.
-/

namespace GW

/-- Little-endian four-byte encoding of a natural number (struct.pack "<I"
applied to a value below 2^32). -/
def u32le (n : ℕ) : List ℕ :=
  [n % 256, n / 256 % 256, n / 65536 % 256, n / 16777216 % 256]

/-- Little-endian u32 value of the first four bytes of a list
(struct.unpack "<I" of a 4-byte slice). -/
def bytesToU32 (l : List ℕ) : ℕ :=
  l.getD 0 0 + 256 * l.getD 1 0 + 65536 * l.getD 2 0 + 16777216 * l.getD 3 0

/-- Little-endian u32 read at byte offset `i` of a buffer. -/
def readU32 (l : List ℕ) (i : ℕ) : ℕ := bytesToU32 (l.drop i)

/-- Normalisation of one Python slice index against a list of length `L`:
negative indices count from the end, and both ends clamp. -/
def pyIdx (L : ℕ) (i : ℤ) : ℕ :=
  if i < 0 then ((L : ℤ) + i).toNat else min i.toNat L

/-- Python list slicing l[a:b] (never raises; clamps at the bounds and
resolves negative indices relative to the end). -/
def pySlice {α : Type} (l : List α) (a b : ℤ) : List α :=
  (l.drop (pyIdx l.length a)).take (pyIdx l.length b - pyIdx l.length a)

/-- Python round on a rational: nearest integer, ties to even.
(Rat.floor is used rather than the floor notation so that the function
evaluates inside the kernel.) -/
def pyRound (q : ℚ) : ℤ :=
  if q - (q.floor : ℚ) < 1/2 then q.floor
  else if (1 : ℚ)/2 < q - (q.floor : ℚ) then q.floor + 1
  else if 2 ∣ q.floor then q.floor else q.floor + 1

/-- Modelled from the spec: the FluxRecord value consumed and produced by the
codec (class Flux of greaseweazle/flux.py, which is not part of the sources
under verification).  Per spec §3 it is a list of inter-transition intervals,
a list of index-mark intervals, and a sample frequency; the field names
`list`, `index_list` and `sample_freq` are the ones the sources use. -/
structure Flux where
  index_list : List ℚ
  list : List ℚ
  sample_freq : ℚ
  deriving DecidableEq, Repr

namespace SCP

/-- SCP sampling frequency: 40 MHz. -/
def sample_freq : ℚ := 40000000

/-- The codec state: SCP.nr_revs (None before the first emitted track),
SCPOpts.legacy_ss, and the to_track dict as an insertion-ordered association
list from track number to the pair (track-data-header bytes, cell-data bytes). -/
structure Codec where
  nr_revs : Option ℤ
  legacy_ss : Bool
  to_track : List (ℕ × List ℕ × List ℕ)
  deriving DecidableEq, Repr

/-- A freshly constructed codec (SCP.__init__ with default SCPOpts). -/
def init : Codec := ⟨none, false, []⟩

/-- First-match association-list lookup (Python dict read). -/
def lookupTrack (k : ℕ) : List (ℕ × List ℕ × List ℕ) → Option (List ℕ × List ℕ)
  | [] => none
  | (k2, v) :: t => if k2 = k then some v else lookupTrack k t

/-- Python dict write d[k] = v: replace in place if the key is present,
append otherwise. -/
def assocSet (k : ℕ) (v : List ℕ × List ℕ) :
    List (ℕ × List ℕ × List ℕ) → List (ℕ × List ℕ × List ℕ)
  | [] => [(k, v)]
  | (k2, v2) :: t => if k2 = k then (k, v) :: t else (k2, v2) :: assocSet k v t

/-- SCP.side_count: number of populated tracks on each side, obtained from
the parity of the populated track numbers. -/
def side_count (t : List (ℕ × List ℕ × List ℕ)) : ℕ × ℕ :=
  t.foldl (fun s p => if p.1 % 2 = 0 then (s.1 + 1, s.2) else (s.1, s.2 + 1)) (0, 0)

/-- The TLUT truncation scan of SCP.from_file: walk the offset table; an
offset pointing inside the TLUT region (0 < off < 0x2b0) truncates the table
to off/4 - 4 entries, failing when that quantity is negative; walking past
the end of the (possibly already truncated) table stops the scan.  The fuel
argument is the number of loop iterations left (the loop is range(168)). -/
def tlutScanAux : ℕ → ℕ → List ℕ → Except String (List ℕ)
  | 0, _, offs => .ok offs
  | fuel + 1, i, offs =>
    match offs.get? i with
    | none => .ok offs
    | some off =>
      if off = 0 ∨ 0x2b0 ≤ off then tlutScanAux fuel (i + 1) offs
      else if off / 4 < 4 then .error "SCP: Bad Track Table"
      else tlutScanAux fuel (i + 1) (offs.take (off / 4 - 4))

/-- The full TLUT truncation scan (loop for i in range(168)). -/
def tlutScan (offs : List ℕ) : Except String (List ℕ) := tlutScanAux 168 0 offs

/-- One track of the from_file track loop: parse the track header at
absolute offset `off`, check the TRK signature and track number, extract the
revolution-header slice and the cell-data slice.  Returns none for an empty
(dummy) track, i.e. when s_off = e_off. -/
def parseTrack (dat : List ℕ) (nr_revs : ℤ) (index_cued : Bool) (trknr off : ℕ) :
    Except String (Option (List ℕ × List ℕ)) := do
  let thdr := pySlice dat (off : ℤ) ((off : ℤ) + 4 + 12 * nr_revs)
  if thdr.length < 4 then .error "struct.error" else
  if ¬ (thdr.take 3 = [84, 82, 75]) then .error "SCP: Missing track signature" else
  if ¬ (thdr.getD 3 0 = trknr) then .error "SCP: Wrong track number in header" else
  let o : ℤ := if index_cued then 12 else 24
  let sb := pySlice thdr o (o + 4)
  if ¬ (sb.length = 4) then .error "struct.error" else
  let s_off := bytesToU32 sb
  let eb := pySlice thdr (-12) (thdr.length : ℤ)
  if ¬ (eb.length = 12) then .error "struct.error" else
  let e_nr := readU32 eb 4
  let e_off := readU32 eb 8 + e_nr * 2
  if s_off = e_off then .ok none else
  .ok (some (thdr.drop 4, pySlice dat ((off : ℤ) + s_off) ((off : ℤ) + e_off)))

/-- The from_file track loop: for each TLUT entry in order, skip zero
offsets, parse the rest, and collect the parsed tracks keyed by track
number. -/
def parseTracks (dat : List ℕ) (nr_revs : ℤ) (index_cued : Bool) :
    ℕ → List ℕ → Except String (List (ℕ × List ℕ × List ℕ))
  | _, [] => .ok []
  | trknr, off :: rest =>
    if off = 0 then parseTracks dat nr_revs index_cued (trknr + 1) rest
    else do
      match ← parseTrack dat nr_revs index_cued trknr off with
      | none => parseTracks dat nr_revs index_cued (trknr + 1) rest
      | some tv => do
        let t ← parseTracks dat nr_revs index_cued (trknr + 1) rest
        .ok ((trknr, tv) :: t)

/-- The legacy single-sided fixup of SCP.from_file: when the header says
single-sided but both key parities are populated, re-key every track as
tnr * 2 + single_sided - 1. -/
def legacyFixup (single_sided : ℕ) (t : List (ℕ × List ℕ × List ℕ)) :
    List (ℕ × List ℕ × List ℕ) :=
  let s := side_count t
  if single_sided ≠ 0 ∧ s.1 ≠ 0 ∧ s.2 ≠ 0 then
    t.foldl (fun d p => assocSet (p.1 * 2 + single_sided - 1) p.2 d) []
  else t

/-- SCP.from_file on a byte string: parse the 16-byte header, the 168-entry
TLUT (with the truncation scan), every referenced track, and apply the
legacy single-sided fixup. -/
def from_file (dat : List ℕ) : Except String Codec := do
  if dat.length < 16 then .error "struct.error" else
  if ¬ (dat.take 3 = [83, 67, 80]) then .error "SCP: Bad signature" else
  let nr_revs0 := dat.getD 5 0
  let flags := dat.getD 8 0
  let single_sided := dat.getD 10 0
  let index_cued : Bool := flags % 2 = 1 ∨ nr_revs0 = 1
  let nr_revs : ℤ := if index_cued then nr_revs0 else (nr_revs0 : ℤ) - 1
  if dat.length < 0x2b0 then .error "struct.error" else
  let tl := pySlice dat 16 0x2b0
  let trk_offs0 := (List.range 168).map (fun j => readU32 tl (4 * j))
  let trk_offs ← tlutScan trk_offs0
  let tracks ← parseTracks dat nr_revs index_cued 0 trk_offs
  .ok ⟨some nr_revs, false, legacyFixup single_sided tracks⟩

/-- The index-time parse of SCP.get_track: split the track-data-header bytes
into 12-byte revolution headers and keep the first u32 of each (the
revolution time in ticks); a trailing chunk shorter than 12 bytes makes
struct.unpack fail. -/
def parseTdh : List ℕ → Except String (List ℕ)
  | [] => .ok []
  | b0 :: b1 :: b2 :: b3 :: _ :: _ :: _ :: _ :: _ :: _ :: _ :: _ :: rest => do
    let r ← parseTdh rest
    .ok ((bytesToU32 [b0, b1, b2, b3]) :: r)
  | _ => .error "struct.error"

/-- The cell decode loop of SCP.get_track: read 16-bit big-endian cells; a
zero cell adds 65536 to the running overflow accumulator; a non-zero cell
emits one transition of accumulator + cell ticks and clears the accumulator.
Reading the second byte of a cell past the end of an odd-length buffer is an
IndexError. -/
def decodeFlux : List ℕ → ℕ → Except String (List ℕ)
  | [], _ => .ok []
  | a :: b :: rest, val =>
    if a * 256 + b = 0 then decodeFlux rest (val + 65536)
    else do
      let r ← decodeFlux rest 0
      .ok ((val + (a * 256 + b)) :: r)
  | _ :: [], _ => .error "IndexError"

/-- SCP.get_track: look the track up by cylinder and side, parse the
per-revolution index times, decode the cell data, and package the result as
a Flux at the fixed 40 MHz SCP sample frequency.  A missing track is None
(not an error). -/
def get_track (c : Codec) (cyl side : ℕ) : Except String (Option Flux) :=
  match lookupTrack (cyl * 2 + side) c.to_track with
  | none => .ok none
  | some (tdh, dat) => do
    let index_list ← parseTdh tdh
    let flux_list ← decodeFlux dat 0
    .ok (some ⟨index_list.map (fun n : ℕ => (n : ℚ)),
               flux_list.map (fun n : ℕ => (n : ℚ)), sample_freq⟩)

/-- Maximum populated track number (Python max(to_track, default=0)). -/
def maxKey (t : List (ℕ × List ℕ × List ℕ)) : ℕ :=
  t.foldl (fun m p => max m p.1) 0

/-- The TLUT / track-record generation loop of SCP.get_image: for each track
number below ntracks in order, either append a TLUT entry pointing at the
track record appended to the data area, or a zero TLUT entry.  struct.pack
fails on a track number above 255 or an offset not below 2^32. -/
def buildLoop (t : List (ℕ × List ℕ × List ℕ)) :
    ℕ → ℕ → List ℕ → List ℕ → Except String (List ℕ × List ℕ)
  | 0, _, offs, dat => .ok (offs, dat)
  | n + 1, tnr, offs, dat =>
    match lookupTrack tnr t with
    | some (tdh, d) =>
      if 255 < tnr then .error "struct.error"
      else if 4294967296 ≤ 0x2b0 + dat.length then .error "struct.error"
      else buildLoop t n (tnr + 1) (offs ++ u32le (0x2b0 + dat.length))
             (dat ++ [84, 82, 75, tnr] ++ tdh ++ d)
    | none => buildLoop t n (tnr + 1) (offs ++ u32le 0) dat

/-- SCP.get_image: infer the single-sided byte from the populated key
parities, apply the legacy_ss re-keying when requested, generate the TLUT
and the concatenated track records, pad the TLUT to 0x2a0 bytes, checksum
everything past the 16-byte header, and prepend the header. -/
def get_image (c : Codec) : Except String (List ℕ) := do
  let s := side_count c.to_track
  let single_sided : ℕ := if s.1 ≠ 0 ∧ s.2 ≠ 0 then 0 else if s.1 ≠ 0 then 1 else 2
  let to_track := if single_sided ≠ 0 ∧ c.legacy_ss then
      c.to_track.foldl (fun d p => assocSet (p.1 / 2) p.2 d) []
    else c.to_track
  let ntracks := maxKey to_track + 1
  let (trk_offs, trk_dat) ← buildLoop to_track ntracks 0 [] []
  if 0x2a0 < trk_offs.length then .error "SCP: Too many tracks" else
  let trk_offs := trk_offs ++ List.replicate (0x2a0 - trk_offs.length) 0
  let csum := trk_offs.sum + trk_dat.sum
  match c.nr_revs with
  | none => .error "TypeError"
  | some r =>
    if r < 0 ∨ 255 < r then .error "struct.error" else
    .ok ([83, 67, 80, 0, 0x80, r.toNat, 0, ntracks - 1, 3, 0, single_sided, 0]
          ++ u32le (csum % 4294967296) ++ trk_offs ++ trk_dat)

/-- struct.pack "<III" of one emitted revolution header; fails when a value
is out of u32 range (the revolution time is a Python int from round()). -/
def packRev (ticks : ℤ) (cells off : ℕ) : Except String (List ℕ) :=
  if ticks < 0 ∨ 4294967296 ≤ ticks then .error "struct.error"
  else if 4294967296 ≤ cells ∨ 4294967296 ≤ off then .error "struct.error"
  else .ok (u32le ticks.toNat ++ u32le cells ++ u32le off)

/-- The mutable locals of the emit_track loop body. -/
structure EmitSt where
  tdh : List ℕ
  dat : List ℕ
  len_at_index : ℕ
  rev : ℕ
  to_index : ℚ
  rem : ℚ
  deriving DecidableEq, Repr

/-- The overflow loop of SCP.emit_track: while val ≥ 65536 emit a two-byte
zero cell and subtract 65536.  The loop runs exactly val / 65536 times,
which is passed as structural fuel. -/
def ovflAux : ℕ → ℕ → List ℕ × ℕ
  | 0, v => ([], v)
  | k + 1, v =>
    if 65536 ≤ v then
      let p := ovflAux k (v - 65536)
      (0 :: 0 :: p.1, p.2)
    else ([], v)

/-- The cell-emission portion of the emit_track loop body for one transition
x: scale by factor, carry the residual, round, force the value off multiples
of 65536, then emit overflow cells and one 16-bit big-endian cell.  A
negative final value makes bytearray.append raise ValueError. -/
def scpCell (factor rem x : ℚ) : Except String (List ℕ × ℚ) :=
  let y := x * factor + rem
  let val0 := pyRound y
  let val := if (65536 : ℤ) ∣ val0 then val0 + 1 else val0
  let rem2 := y - (val : ℚ)
  if val < 0 then .error "ValueError"
  else
    let p := ovflAux (val.toNat / 65536) val.toNat
    .ok (p.1 ++ [p.2 / 256, p.2 % 256], rem2)

/-- The index-crossing loop at the top of the emit_track body: while the
next transition interval crosses the index mark, close the current
revolution by appending its header, and return the finished track as soon
as every revolution is closed (surplus flux is discarded).  rev strictly
increases and the loop returns once rev reaches nr_revs, so nr_revs + 1
iterations of fuel always suffice; rev < nr_revs = index_list.length holds
whenever index_list is read, so the getD default is never used. -/
def crossLoop (index_list : List ℚ) (nr_revs : ℕ) (factor x : ℚ) :
    ℕ → EmitSt → Except String (Sum (List ℕ × List ℕ) EmitSt)
  | 0, _ => .error "fuel"
  | fuel + 1, st =>
    if st.to_index < x then do
      let hdr ← packRev (pyRound ((index_list.getD st.rev 0) * factor))
                  ((st.dat.length - st.len_at_index) / 2)
                  (4 + nr_revs * 12 + st.len_at_index)
      let st2 := { st with
        tdh := st.tdh ++ hdr
        len_at_index := st.dat.length
        rev := st.rev + 1 }
      if nr_revs ≤ st2.rev then .ok (.inl (st2.tdh, st2.dat))
      else crossLoop index_list nr_revs factor x fuel
             { st2 with to_index := st2.to_index + index_list.getD st2.rev 0 }
    else .ok (.inr st)

/-- The main transition loop of SCP.emit_track. -/
def emitLoop (index_list : List ℚ) (nr_revs : ℕ) (factor : ℚ) :
    List ℚ → EmitSt → Except String (Sum (List ℕ × List ℕ) EmitSt)
  | [], st => .ok (.inr st)
  | x :: xs, st => do
    match ← crossLoop index_list nr_revs factor x (nr_revs + 1) st with
    | .inl done => .ok (.inl done)
    | .inr st1 => do
      let p ← scpCell factor st1.rem x
      emitLoop index_list nr_revs factor xs
        { st1 with to_index := st1.to_index - x, dat := st1.dat ++ p.1, rem := p.2 }

/-- The trailing header loop of SCP.emit_track, run when the flux list ran
out before every revolution was closed: close the remaining revolutions
with the current data length.  The loop runs at most nr_revs times. -/
def tailLoop (index_list : List ℚ) (nr_revs : ℕ) (factor : ℚ) :
    ℕ → EmitSt → Except String (List ℕ × List ℕ)
  | 0, st => .ok (st.tdh, st.dat)
  | fuel + 1, st =>
    if st.rev < nr_revs then do
      let hdr ← packRev (pyRound ((index_list.getD st.rev 0) * factor))
                  ((st.dat.length - st.len_at_index) / 2)
                  (4 + nr_revs * 12 + st.len_at_index)
      tailLoop index_list nr_revs factor fuel
        { st with
          tdh := st.tdh ++ hdr
          len_at_index := st.dat.length
          rev := st.rev + 1 }
    else .ok (st.tdh, st.dat)

/-- SCP.emit_track: convert one track's flux into SCP bitcell format at the
40 MHz base and store it under track number cyl*2 + side.  A revolution
count differing from an earlier track is an AssertionError; an empty index
list is an IndexError at index_list[0] (Python treats both None and 0 as an
unset nr_revs). -/
def emit_track (c : Codec) (cyl side : ℕ) (flux : Flux) : Except String Codec := do
  let nr_revs := flux.index_list.length
  let c ←
    if c.nr_revs = none ∨ c.nr_revs = some 0 then
      pure { c with nr_revs := some (nr_revs : ℤ) }
    else if c.nr_revs = some (nr_revs : ℤ) then pure c
    else .error "AssertionError"
  match flux.index_list with
  | [] => .error "IndexError"
  | i0 :: _ => do
    let factor := sample_freq / flux.sample_freq
    let st0 : EmitSt := ⟨[], [], 0, 0, i0, 0⟩
    let td ← match ← emitLoop flux.index_list nr_revs factor flux.list st0 with
      | .inl done => pure done
      | .inr st => tailLoop flux.index_list nr_revs factor nr_revs st
    .ok { c with to_track := assocSet (cyl * 2 + side) td c.to_track }

end SCP

/-- Repetition of a pattern (Python sequence * k). -/
def listRepeat {α : Type} (p : List α) : ℕ → List α
  | 0 => []
  | k + 1 => p ++ listRepeat p k

/-- Big-endian bits of the short-weak-region pattern b"\x80\x00\x00\x00". -/
def pat32 : List Bool := true :: List.replicate 31 false

/-- Big-endian bits of the long-weak-region pattern b"\x12\xA5"
(MFM 0001001010100101). -/
def pat16 : List Bool :=
  [false, false, false, true, false, false, true, false,
   true, false, true, false, false, true, false, true]

/-- A pristine track representation (class MasterTrack): bitcells aligned to
the write splice, seconds per revolution, optional per-bitcell tick values,
splice position and weak ranges. -/
structure MasterTrack where
  bits : List Bool
  time_per_rev : ℚ
  bit_ticks : Option (List ℚ)
  splice : ℕ
  weak : List (ℕ × ℕ)
  deriving DecidableEq, Repr

/-- Modelled from the spec: the WriteoutFlux value returned by
MasterTrack.flux (class WriteoutFlux of greaseweazle/flux.py, not among the
sources under verification).  Per spec §4.2 its constructor arguments are
the ticks to the index (which becomes the single-element index list), the
flux list, the sample frequency (total ticks divided by time_per_rev) and
the terminate-at-index flag. -/
structure WriteoutFlux where
  index_list : List ℚ
  list : List ℚ
  sample_freq : ℚ
  terminate_at_index : Bool
  deriving DecidableEq, Repr

namespace MasterTrack

/-- The fuzzy-clock tick redistribution of a long weak region: for each
i = 16·j with i in range(0, n-10, 16), the tick at s+i+10 takes half of the
tick at s+i+11.  An index past the end of the tick list is an uncaught
IndexError. -/
def redistribute (s : ℕ) : List ℕ → List ℚ → Except String (List ℚ)
  | [], ticks => .ok ticks
  | j :: js, ticks =>
    let i := 16 * j
    if s + i + 11 < ticks.length then
      let x := ticks.getD (s + i + 10) 0
      let y := ticks.getD (s + i + 11) 0
      redistribute s js
        ((ticks.set (s + i + 10) (x + y * (1/2))).set (s + i + 11) (y * (1/2)))
    else .error "IndexError"

/-- One weak range of the MasterTrack.flux weak loop: check the assert,
overlay the range with the fixed pattern (no-flux pattern for short ranges,
fuzzy MFM pattern with tick redistribution for long ones), then stitch the
first and last bits of the range to their neighbours. -/
def weakStep (bitlen : ℕ) (bt : List Bool × List ℚ) (w : ℕ × ℕ) :
    Except String (List Bool × List ℚ) := do
  let s := w.1
  let n := w.2
  let e := s + n
  if ¬ (0 < s ∧ s < e ∧ e < bitlen) then .error "AssertionError" else
  let bt2 ←
    if n < 400 then
      pure (bt.1.take s ++ (listRepeat pat32 (n / 32 + 1)).take n ++ bt.1.drop e, bt.2)
    else do
      let t ← redistribute s (List.range ((n - 10 + 15) / 16)) bt.2
      pure (bt.1.take s ++ (listRepeat pat16 (n / 16 + 1)).take n ++ bt.1.drop e, t)
  let bits := bt2.1.set s (! bt2.1.getD (s - 1) false)
  let bits := bits.set (e - 1) (! (bits.getD (e - 2) false || bits.getD e false))
  .ok (bits, bt2.2)

/-- The weak-range loop of MasterTrack.flux. -/
def weakLoop (bitlen : ℕ) :
    List (ℕ × ℕ) → List Bool × List ℚ → Except String (List Bool × List ℚ)
  | [], bt => .ok bt
  | w :: ws, bt => do weakLoop bitlen ws (← weakStep bitlen bt w)

/-- The backwards fill of the write-out extension when the splice is away
from the index: while pos ≥ 32, step pos back by 32 and overwrite
bits[pos:pos+32] with the fill window.  The loop runs pos / 32 times. -/
def backFill (fill : List Bool) : ℕ → ℕ → List Bool → List Bool
  | 0, _, bits => bits
  | fuel + 1, pos, bits =>
    if 32 ≤ pos then
      backFill fill fuel (pos - 32)
        ((bits.take (pos - 32)) ++ fill ++ bits.drop pos)
    else bits

/-- The bits-and-ticks to flux conversion at the end of MasterTrack.flux:
accumulate ticks and emit one interval at every set bit; exhausting the
tick iterator before the bits is an uncaught StopIteration.  Returns the
flux list and the leftover accumulated ticks. -/
def bitsToFlux : List Bool → List ℚ → ℚ → Except String (List ℚ × ℚ)
  | [], _, acc => .ok ([], acc)
  | _ :: _, [], _ => .error "StopIteration"
  | bit :: bits, t :: ts, acc =>
    if bit then do
      let r ← bitsToFlux bits ts 0
      .ok ((acc + t) :: r.1, r.2)
    else bitsToFlux bits ts (acc + t)

/-- The copied tick vector at the top of MasterTrack.flux: the stored
bit_ticks when present and non-empty (Python truthiness), otherwise the
dummy all-ones vector [1] * len(bits). -/
def origTicks (mt : MasterTrack) : List ℚ :=
  match mt.bit_ticks with
  | some (t :: ts) => t :: ts
  | _ => List.replicate mt.bits.length 1

/-- MasterTrack.flux: copy bits and ticks (a uniform all-ones tick vector
when bit_ticks is absent or empty), remember the total ticks, process the
weak ranges, rotate so the output starts at the index, optionally extend
for write-out, convert to flux, and package the result (`% 0` on an empty
track is a ZeroDivisionError). -/
def flux (mt : MasterTrack) (for_writeout : Bool) : Except String WriteoutFlux := do
  let bits0 := mt.bits
  let bitlen := bits0.length
  let bit_ticks0 : List ℚ := origTicks mt
  let ticks_to_index := bit_ticks0.sum
  let bt ← weakLoop bitlen mt.weak (bits0, bit_ticks0)
  if bitlen = 0 then .error "ZeroDivisionError" else
  let index := ((-(mt.splice : ℤ)) % (bitlen : ℤ)).toNat
  let bits2 := if index ≠ 0 then bt.1.drop index ++ bt.1.take index else bt.1
  let ticks2 := if index ≠ 0 then bt.2.drop index ++ bt.2.take index else bt.2
  let splice_at_index : Bool := index < 4 ∨ bitlen - index < 4
  let bt3 : List Bool × List ℚ :=
    if ¬ for_writeout then (bits2, ticks2)
    else if splice_at_index then
      let pos := (((mt.splice : ℤ) - 4) % (bitlen : ℤ)).toNat
      let rep := bitlen / (10 * 32)
      (pySlice bits2 0 pos ++ listRepeat (pySlice bits2 ((pos : ℤ) - 32) pos) rep,
       pySlice ticks2 0 pos ++ listRepeat (pySlice ticks2 ((pos : ℤ) - 32) pos) rep)
    else
      let ticks3 := ticks2 ++ pySlice ticks2 0 ((mt.splice : ℤ) - 4)
      let bits3 := bits2 ++ pySlice bits2 0 ((mt.splice : ℤ) - 4)
      let pos := mt.splice + 4
      let fill := pySlice bits3 (pos : ℤ) ((pos : ℤ) + 32)
      (backFill fill (pos / 32 + 1) pos bits3, ticks3)
  let fl ← bitsToFlux bt3.1 bt3.2 0
  let flux_list := if fl.2 ≠ 0 ∧ for_writeout then fl.1 ++ [fl.2] else fl.1
  .ok ⟨[ticks_to_index], flux_list, ticks_to_index / mt.time_per_rev, splice_at_index⟩

end MasterTrack

namespace RawTrack

/-- The mutable state of RawTrack.append_revolutions: the PLL locals
(clock, ticks, to_index, the not-yet-consumed index intervals in seconds,
the current revolution's bits and times) together with the RawTrack object
state (bitarray, timearray, revolutions). -/
structure PLLSt where
  clock : ℚ
  ticks : ℚ
  to_index : ℚ
  idx : List ℚ
  bits : List Bool
  times : List ℚ
  bitarray : List Bool
  timearray : List ℚ
  revolutions : List ℕ
  deriving DecidableEq, Repr

/-- Outcome of append_revolutions: normal return (with the final state),
an AssertionError, a StopIteration on an empty index list, or exhausted
modelling fuel for the inner while loop. -/
inductive PLLRes where
  | done (s : PLLSt)
  | assertFail
  | stopIter
  | noFuel
  deriving DecidableEq, Repr

/-- times[-1] += d.  The code only runs this right after appending an
element, so the list is never empty there. -/
def addLast (l : List ℚ) (d : ℚ) : List ℚ :=
  l.set (l.length - 1) (l.getD (l.length - 1) 0 + d)

/-- The inner while-True loop of append_revolutions: cross the index (flush
the finished revolution, returning when the index intervals are exhausted),
clock one bitcell out, and either continue with a 0 bit or break with a 1
bit.  Every iteration consumes one unit of fuel. -/
def pllInner (fuel : ℕ) (st : PLLSt) (zeros : ℕ) : Sum PLLRes (PLLSt × ℕ) :=
  match fuel with
  | 0 => .inl .noFuel
  | fuel + 1 =>
    let st := { st with to_index := st.to_index - st.clock }
    let step : Sum PLLRes PLLSt :=
      if st.to_index < 0 then
        let st := { st with
          bitarray := st.bitarray ++ st.bits
          timearray := st.timearray ++ st.times
          revolutions := st.revolutions ++ [st.times.length] }
        if st.times.length ≠ st.bits.length then .inl .assertFail else
        match st.idx with
        | [] => .inl (.done st)
        | i :: rest =>
          .inr { st with
            to_index := st.to_index + i
            idx := rest
            bits := []
            times := [] }
      else .inr st
    match step with
    | .inl r => .inl r
    | .inr st =>
      let st2 : PLLSt := { st with ticks := st.ticks - st.clock, times := st.times ++ [st.clock] }
      if st2.clock / 2 ≤ st2.ticks then
        pllInner fuel { st2 with bits := st2.bits ++ [false] } (zeros + 1)
      else .inr ({ st2 with bits := st2.bits ++ [true] }, zeros)

/-- The outer transition loop of append_revolutions: accumulate each
transition time; once at least half a clock has accumulated, run the inner
loop, then apply the PLL period and phase adjustments.  Falling off the end
of the transition list reaches the assert False after the loop. -/
def pllOuter (c0 cMin cMax freq : ℚ) (fuel : ℕ) : List ℚ → PLLSt → PLLRes
  | [], _ => .assertFail
  | x :: xs, st =>
    let st1 : PLLSt := { st with ticks := st.ticks + x / freq }
    if st1.ticks < st1.clock / 2 then pllOuter c0 cMin cMax freq fuel xs st1
    else
      match pllInner fuel st1 0 with
      | .inl r => r
      | .inr (st2, zeros) =>
        let clock := if zeros ≤ 3 then st2.clock + st2.ticks * (1/20)
                     else st2.clock + (c0 - st2.clock) * (1/20)
        let clock2 := min (max clock cMin) cMax
        let new_ticks := st2.ticks * (1 - 3/5)
        let st3 : PLLSt := { st2 with
          clock := clock2
          times := addLast st2.times (st2.ticks - new_ticks)
          ticks := new_ticks }
        pllOuter c0 cMin cMax freq fuel xs st3

/-- RawTrack.append_revolutions with PLL parameters clock (self.clock,
default 2e-6), clock_max_adj 0.10, pll_period_adj 0.05, pll_phase_adj 0.60.
The argument is already a Flux (Flux.flux() returns the record itself).  A
sentinel transition equal to the sum of the index intervals is appended to
the transition list.  next() on an empty index iterator at initialisation
is an uncaught StopIteration. -/
def append_revolutions (clock : ℚ) (fuel : ℕ) (data : Flux) : PLLRes :=
  let freq := data.sample_freq
  let cMin := clock * (1 - 1/10)
  let cMax := clock * (1 + 1/10)
  match data.index_list with
  | [] => .stopIter
  | i :: rest =>
    pllOuter clock cMin cMax freq fuel (data.list ++ [data.index_list.sum])
      { clock := clock
        ticks := 0
        to_index := i / freq
        idx := rest.map (fun q => q / freq)
        bits := []
        times := []
        bitarray := []
        timearray := []
        revolutions := [] }

end RawTrack

/-- Cell-level transition decode law (the claim wording of §4.1.3): a zero
cell adds 65536 to the overflow accumulator, a non-zero cell c emits one
transition of accumulator + c ticks and resets the accumulator, trailing
overflow with no terminating non-zero cell emits nothing. -/
def specTransitions : ℕ → List ℕ → List ℕ
  | _, [] => []
  | acc, c :: r =>
    if c = 0 then specTransitions (acc + 65536) r
    else (acc + c) :: specTransitions 0 r

/-- Big-endian two-byte encoding of a list of 16-bit cell values. -/
def cellBytes (cells : List ℕ) : List ℕ :=
  (cells.map (fun c => [c / 256, c % 256])).flatten

/-- Track-data-header bytes built from (index_ticks, cell_count,
data_offset) triples, 12 bytes per revolution. -/
def revBytes (rs : List (ℕ × ℕ × ℕ)) : List ℕ :=
  (rs.map (fun r => u32le r.1 ++ u32le r.2.1 ++ u32le r.2.2)).flatten

/-- Decode a byte string and re-encode the resulting codec. -/
def reimage (B : List ℕ) : Except String (List ℕ) := do
  SCP.get_image (← SCP.from_file B)

/-- The bit stream accumulated by a normally returning append_revolutions. -/
def resBits : RawTrack.PLLRes → Option (List Bool)
  | .done s => some s.bitarray
  | _ => none

/-- The final PLL clock of a normally returning append_revolutions. -/
def resClock : RawTrack.PLLRes → Option ℚ
  | .done s => some s.clock
  | _ => none

/-- The revolution lengths of a normally returning append_revolutions. -/
def resRevs : RawTrack.PLLRes → Option (List ℕ)
  | .done s => some s.revolutions
  | _ => none

/-- An 18-byte single-revolution track record used by the concrete test
images: one revolution of 1000 ticks with a single 400-tick cell. -/
def trkRec4 (tnr : ℕ) : List ℕ :=
  [84, 82, 75, tnr] ++ u32le 1000 ++ u32le 1 ++ u32le 16 ++ [1, 144]

/-- Concrete image with header single_sided = 1 and populated tracks
0, 1, 2, 3 (the legacy single-sided import scenario). -/
def imgC4 : List ℕ :=
  [83, 67, 80, 0, 0, 1, 0, 0, 1, 0, 1, 0] ++ u32le 0
  ++ u32le 0x2b0 ++ u32le (0x2b0 + 18) ++ u32le (0x2b0 + 36) ++ u32le (0x2b0 + 54)
  ++ List.replicate (0x2a0 - 16) 0
  ++ trkRec4 0 ++ trkRec4 1 ++ trkRec4 2 ++ trkRec4 3

/-- The same image as imgC4 but with the single_sided header byte clear
(showing which track keys the image populates before any fixup). -/
def imgC4ss0 : List ℕ :=
  [83, 67, 80, 0, 0, 1, 0, 0, 1, 0, 0, 0] ++ u32le 0
  ++ u32le 0x2b0 ++ u32le (0x2b0 + 18) ++ u32le (0x2b0 + 36) ++ u32le (0x2b0 + 54)
  ++ List.replicate (0x2a0 - 16) 0
  ++ trkRec4 0 ++ trkRec4 1 ++ trkRec4 2 ++ trkRec4 3

/-- Concrete image whose TLUT holds a truncating entry 0x14 at index 1 and
an entry 8 (whose off/4 - 4 is negative) at index 5, behind the truncation
point. -/
def imgC7 : List ℕ :=
  [83, 67, 80, 0, 0, 1, 0, 0, 1, 0, 0, 0] ++ u32le 0
  ++ u32le 0 ++ u32le 0x14 ++ u32le 0 ++ u32le 0 ++ u32le 0 ++ u32le 8
  ++ List.replicate (0x2a0 - 24) 0

/-- Concrete two-revolution image whose single track has a one-byte
(odd-length) cell-data slice: s_off = 28, e_off = 29, e_nr = 0. -/
def imgC10 : List ℕ :=
  [83, 67, 80, 0, 0, 2, 0, 0, 1, 0, 0, 0] ++ u32le 0
  ++ u32le 0x2b0 ++ List.replicate (0x2a0 - 4) 0
  ++ [84, 82, 75, 0] ++ u32le 100 ++ u32le 5 ++ u32le 28
  ++ u32le 100 ++ u32le 0 ++ u32le 29 ++ [171]

/-- The codec produced by emitting a single track with one revolution of
8000000 ticks and no transitions at all. -/
def c1codec : SCP.Codec :=
  ⟨some 1, false, [(0, u32le 8000000 ++ u32le 0 ++ u32le 16, [])]⟩

/-- The image encoded from c1codec: single_sided = 1, one TLUT entry, an
18-byte track record with no cell data. -/
def imgC1 : List ℕ :=
  [83, 67, 80, 0, 128, 1, 0, 0, 3, 0, 1, 0] ++ u32le 575
  ++ u32le 0x2b0 ++ List.replicate 668 0
  ++ [84, 82, 75, 0] ++ u32le 8000000 ++ u32le 0 ++ u32le 16

/-- The image obtained by decoding imgC1 (the empty track is dropped as a
dummy) and re-encoding: an empty single_sided = 2 image. -/
def imgC1r : List ℕ :=
  [83, 67, 80, 0, 128, 1, 0, 0, 3, 0, 2, 0] ++ u32le 0 ++ List.replicate 672 0

/-- The emitted cell value for one transition: round(x·factor + rem),
bumped by one when it lands on a multiple of 65536. -/
def scpVal (factor rem x : ℚ) : ℤ :=
  if (65536 : ℤ) ∣ pyRound (x * factor + rem) then pyRound (x * factor + rem) + 1
  else pyRound (x * factor + rem)

/-- Well-formedness of one stored track with revolution count r, as
established by a successful emit_track: the track-data header is one
12-byte record per revolution made of bytes, the first record's data
offset is 4 + 12r (the cell data directly follows the headers), the last
record's data offset plus twice its cell count is the total track record
length, and the cell data is an even number of bytes. -/
def TrackWF (r : ℕ) (tdh dat : List ℕ) : Prop :=
  tdh.length = 12 * r ∧ (∀ b ∈ tdh, b < 256) ∧ (∀ b ∈ dat, b < 256) ∧
  2 ∣ dat.length ∧ readU32 tdh 8 = 4 + 12 * r ∧
  readU32 tdh (12 * r - 4) + 2 * readU32 tdh (12 * r - 8) = 4 + 12 * r + dat.length

/-- Well-formedness of a codec populated by emit_track with the legacy_ss
option unset: at least one revolution, pairwise distinct track keys, and
every stored track TrackWF. -/
def CodecWF (c : SCP.Codec) : Prop :=
  c.legacy_ss = false ∧
  (∃ r : ℕ, c.nr_revs = some (r : ℤ) ∧ 1 ≤ r ∧
    ∀ p ∈ c.to_track, TrackWF r p.2.1 p.2.2) ∧
  (c.to_track.map Prod.fst).Nodup

/-- Codecs reachable from a fresh SCP() by successful emit_track calls. -/
inductive EmitReachable : SCP.Codec → Prop where
  | init : EmitReachable SCP.init
  | step (c c2 : SCP.Codec) (cyl side : ℕ) (flux : Flux) :
      EmitReachable c → SCP.emit_track c cyl side flux = .ok c2 → EmitReachable c2

/-- The pure shape of the get_image generation loop: n remaining slots
starting at track number tnr, with dlen data bytes already emitted;
returns the TLUT bytes and the concatenated track records. -/
def pureBuild (t : List (ℕ × List ℕ × List ℕ)) : ℕ → ℕ → ℕ → List ℕ × List ℕ
  | 0, _, _ => ([], [])
  | n + 1, tnr, dlen =>
    match SCP.lookupTrack tnr t with
    | some (tdh, d) =>
      let rc := [84, 82, 75, tnr] ++ tdh ++ d
      let p := pureBuild t n (tnr + 1) (dlen + rc.length)
      (u32le (0x2b0 + dlen) ++ p.1, rc ++ p.2)
    | none =>
      let p := pureBuild t n (tnr + 1) dlen
      (u32le 0 ++ p.1, p.2)


/-- The canonical key-ascending track list recovered by parsing an encoded
image: walk n candidate track numbers starting at j and keep the populated
ones in order. -/
def canonTracks (t : List (ℕ × List ℕ × List ℕ)) : ℕ → ℕ → List (ℕ × List ℕ × List ℕ)
  | 0, _ => []
  | n + 1, j =>
    match SCP.lookupTrack j t with
    | some v => (j, v) :: canonTracks t n (j + 1)
    | none => canonTracks t n (j + 1)

/-- The numeric TLUT entries generated by the get_image build loop: n slots
starting at track number tnr with dlen data bytes already emitted. -/
def offVals (t : List (ℕ × List ℕ × List ℕ)) : ℕ → ℕ → ℕ → List ℕ
  | 0, _, _ => []
  | n + 1, tnr, dlen =>
    match SCP.lookupTrack tnr t with
    | some (tdh, d) => (0x2b0 + dlen) :: offVals t n (tnr + 1) (dlen + (4 + tdh.length + d.length))
    | none => 0 :: offVals t n (tnr + 1) dlen

/-- The concatenated track records generated by the get_image build loop. -/
def recs (t : List (ℕ × List ℕ × List ℕ)) : ℕ → ℕ → List ℕ
  | 0, _ => []
  | n + 1, tnr =>
    match SCP.lookupTrack tnr t with
    | some (tdh, d) => ([84, 82, 75, tnr] ++ tdh ++ d) ++ recs t n (tnr + 1)
    | none => recs t n (tnr + 1)

/-- Loop invariant of the emit_track body with revolution count nr: the
track-data header is one 12-byte record per closed revolution, everything
is bytes, the cell data and the data length at the last index are even,
the first record's data offset is 4 + 12·nr, and the last record's data
offset plus twice its cell count is 4 + 12·nr plus the data length at the
last index. -/
def EmitInv (nr : ℕ) (st : SCP.EmitSt) : Prop :=
  st.tdh.length = 12 * st.rev ∧
  (∀ b ∈ st.tdh, b < 256) ∧ (∀ b ∈ st.dat, b < 256) ∧
  2 ∣ st.dat.length ∧ 2 ∣ st.len_at_index ∧ st.len_at_index ≤ st.dat.length ∧
  (st.rev = 0 → st.len_at_index = 0) ∧
  (1 ≤ st.rev → readU32 st.tdh 8 = 4 + 12 * nr) ∧
  (1 ≤ st.rev →
    readU32 st.tdh (12 * st.rev - 4) + 2 * readU32 st.tdh (12 * st.rev - 8)
      = 4 + 12 * nr + st.len_at_index)

def c1bcodec : SCP.Codec :=
  ⟨some 1, false, [(0, u32le 8000000 ++ u32le 2 ++ u32le 16, [0, 0, 0, 1])]⟩

def imgC1b : List ℕ :=
  [83, 67, 80, 0, 128, 1, 0, 0, 3, 0, 1, 0] ++ u32le 578 ++ u32le 0x2b0
  ++ List.replicate 668 0 ++ [84, 82, 75, 0] ++ u32le 8000000 ++ u32le 2
  ++ u32le 16 ++ [0, 0, 0, 1]

theorem u32le_length (n : ℕ) : (u32le n).length = 4 := rfl

theorem u32le_lt (n : ℕ) : ∀ b ∈ u32le n, b < 256 := by
  intro b hb
  simp only [u32le, List.mem_cons, List.mem_singleton, List.not_mem_nil, or_false] at hb
  rcases hb with h | h | h | h <;> subst h <;> exact Nat.mod_lt _ (by norm_num)

theorem bytesToU32_u32le (n : ℕ) (h : n < 4294967296) :
    bytesToU32 (u32le n) = n := by
  simp only [u32le, bytesToU32, List.getD_cons_zero, List.getD_cons_succ]
  omega

theorem bytesToU32_u32le_append (n : ℕ) (h : n < 4294967296) (rest : List ℕ) :
    bytesToU32 (u32le n ++ rest) = n := by
  simp only [u32le, List.cons_append, List.nil_append, bytesToU32,
    List.getD_cons_zero, List.getD_cons_succ]
  omega

theorem ovflAux_eq : ∀ (k v : ℕ), v / 65536 = k →
    SCP.ovflAux k v = (listRepeat [0, 0] k, v % 65536) := by
  intro k
  induction k with
  | zero =>
    intro v hv
    have hlt : v < 65536 := by omega
    rw [show SCP.ovflAux 0 v = ([], v) from rfl, Nat.mod_eq_of_lt hlt]
    rfl
  | succ k ih =>
    intro v hv
    have h1 : 65536 ≤ v := by omega
    have h2 : (v - 65536) / 65536 = k := by omega
    rw [show SCP.ovflAux (k + 1) v =
          (if 65536 ≤ v then
            (0 :: 0 :: (SCP.ovflAux k (v - 65536)).1, (SCP.ovflAux k (v - 65536)).2)
          else ([], v)) from rfl,
       if_pos h1, ih (v - 65536) h2]
    rw [show listRepeat ([0, 0] : List ℕ) (k + 1) = 0 :: 0 :: listRepeat [0, 0] k from rfl]
    have h3 : (v - 65536) % 65536 = v % 65536 := by omega
    rw [h3]

theorem ratFloor_eq (q : ℚ) : q.floor = ⌊q⌋ :=
  (Rat.floor_def' q).trans Rat.floor_def.symm

theorem pyRound_intCast (n : ℤ) : pyRound ((n : ℚ)) = n := by
  unfold pyRound
  rw [ratFloor_eq, Int.floor_intCast, sub_self]
  norm_num

theorem scpVal_nonneg (factor rem x : ℚ) (h : 0 ≤ pyRound (x * factor + rem)) :
    0 ≤ scpVal factor rem x := by
  unfold scpVal
  split <;> omega

theorem scpVal_not_dvd (factor rem x : ℚ) : ¬ (65536 : ℤ) ∣ scpVal factor rem x := by
  unfold scpVal
  by_cases hd : (65536 : ℤ) ∣ pyRound (x * factor + rem)
  · rw [if_pos hd]
    rcases hd with ⟨a, ha⟩
    rintro ⟨b, hb⟩
    omega
  · rw [if_neg hd]
    exact hd

theorem scpCell_eq (factor rem x : ℚ) (h : 0 ≤ pyRound (x * factor + rem)) :
    SCP.scpCell factor rem x =
      .ok (listRepeat [0, 0] ((scpVal factor rem x).toNat / 65536) ++
             [(scpVal factor rem x).toNat % 65536 / 256,
              (scpVal factor rem x).toNat % 65536 % 256],
           x * factor + rem - (scpVal factor rem x : ℚ)) := by
  have hval := scpVal_nonneg factor rem x h
  have e1 : SCP.scpCell factor rem x =
      (if scpVal factor rem x < 0 then .error "ValueError"
       else .ok ((SCP.ovflAux ((scpVal factor rem x).toNat / 65536)
                    (scpVal factor rem x).toNat).1 ++
                   [(SCP.ovflAux ((scpVal factor rem x).toNat / 65536)
                       (scpVal factor rem x).toNat).2 / 256,
                    (SCP.ovflAux ((scpVal factor rem x).toNat / 65536)
                       (scpVal factor rem x).toNat).2 % 256],
                  x * factor + rem - ((scpVal factor rem x : ℚ)))) := rfl
  rw [e1, if_neg (by omega), ovflAux_eq _ _ rfl]

theorem scpVal_65536 : scpVal 1 0 65536 = 65537 := by
  have h1 : (65536 : ℚ) * 1 + 0 = ((65536 : ℤ) : ℚ) := by norm_num
  unfold scpVal
  rw [h1, pyRound_intCast]
  norm_num

/-- C2: for a transition interval x, the cell-emission step computes
y = x · factor + rem and val = round(y), forces val off any multiple of
65536 by adding 1 before the residual update rem = y − val, emits each
full 65536 in val as a two-zero-byte overflow cell and the remainder as
one 16-bit big-endian cell; in particular a transition of exactly 65536
ticks at factor 1 and rem 0 emits the bytes 0x00 0x00 0x00 0x01. -/
theorem c2_cell_emission (factor rem x : ℚ)
    (h : 0 ≤ pyRound (x * factor + rem)) :
    (SCP.scpCell factor rem x =
        .ok (listRepeat [0, 0] ((scpVal factor rem x).toNat / 65536) ++
               [(scpVal factor rem x).toNat % 65536 / 256,
                (scpVal factor rem x).toNat % 65536 % 256],
             x * factor + rem - (scpVal factor rem x : ℚ)) ∧
      ¬ (65536 : ℤ) ∣ scpVal factor rem x ∧
      (scpVal factor rem x).toNat % 65536 ≠ 0) ∧
    SCP.scpCell 1 0 65536 = .ok ([0, 0, 0, 1], -1) := by
  have hval := scpVal_nonneg factor rem x h
  have hndvd := scpVal_not_dvd factor rem x
  have hmod : (scpVal factor rem x).toNat % 65536 ≠ 0 := by
    intro hc
    apply hndvd
    have h2 : ((scpVal factor rem x).toNat : ℤ) = scpVal factor rem x :=
      Int.toNat_of_nonneg hval
    refine ⟨((scpVal factor rem x).toNat / 65536 : ℕ), ?_⟩
    omega
  refine ⟨⟨scpCell_eq factor rem x h, hndvd, hmod⟩, ?_⟩
  have h65 : 0 ≤ pyRound ((65536 : ℚ) * 1 + 0) := by
    rw [show ((65536 : ℚ) * 1 + 0) = ((65536 : ℤ) : ℚ) by norm_num, pyRound_intCast]
    norm_num
  rw [scpCell_eq 1 0 65536 h65, scpVal_65536]
  norm_num [listRepeat]
  omega

theorem c2_cell_emission_witness :
    SCP.scpCell 1 0 65536 = .ok ([0, 0, 0, 1], -1) :=
  (c2_cell_emission 1 0 65536
      (by rw [show ((65536 : ℚ) * 1 + 0) = ((65536 : ℤ) : ℚ) by norm_num,
              pyRound_intCast]
          norm_num)).2

theorem parseTdh_cons12 (a b c d e f g h i j k l : ℕ) (rest : List ℕ) :
    SCP.parseTdh (a :: b :: c :: d :: e :: f :: g :: h :: i :: j :: k :: l :: rest) =
      Except.bind (SCP.parseTdh rest)
        (fun r => .ok (bytesToU32 [a, b, c, d] :: r)) := rfl

theorem parseTdh_revBytes : ∀ rs : List (ℕ × ℕ × ℕ),
    (∀ p ∈ rs, p.1 < 4294967296) →
    SCP.parseTdh (revBytes rs) = .ok (rs.map (fun p => p.1)) := by
  intro rs
  induction rs with
  | nil => intro _; rfl
  | cons r rs ih =>
    intro hr
    have h1 : r.1 < 4294967296 := hr r (by simp)
    have e : revBytes (r :: rs) =
        r.1 % 256 :: r.1 / 256 % 256 :: r.1 / 65536 % 256 :: r.1 / 16777216 % 256
        :: r.2.1 % 256 :: r.2.1 / 256 % 256 :: r.2.1 / 65536 % 256 :: r.2.1 / 16777216 % 256
        :: r.2.2 % 256 :: r.2.2 / 256 % 256 :: r.2.2 / 65536 % 256 :: r.2.2 / 16777216 % 256
        :: revBytes rs := rfl
    rw [e, parseTdh_cons12, ih (fun p hp => hr p (List.mem_cons_of_mem _ hp))]
    have e2 : bytesToU32 [r.1 % 256, r.1 / 256 % 256, r.1 / 65536 % 256,
        r.1 / 16777216 % 256] = r.1 := by
      simp only [bytesToU32, List.getD_cons_zero, List.getD_cons_succ]
      omega
    simp [e2, Except.bind]

theorem decodeFlux_cellBytes : ∀ (cells : List ℕ) (acc : ℕ),
    (∀ x ∈ cells, x < 65536) →
    SCP.decodeFlux (cellBytes cells) acc = .ok (specTransitions acc cells) := by
  intro cells
  induction cells with
  | nil => intro acc _; rfl
  | cons c cs ih =>
    intro acc hc
    have h1 : c < 65536 := hc c (by simp)
    have e : cellBytes (c :: cs) = c / 256 :: c % 256 :: cellBytes cs := rfl
    have e2 : SCP.decodeFlux (c / 256 :: c % 256 :: cellBytes cs) acc =
        (if c / 256 * 256 + c % 256 = 0 then SCP.decodeFlux (cellBytes cs) (acc + 65536)
         else Except.bind (SCP.decodeFlux (cellBytes cs) 0)
                (fun r => .ok ((acc + (c / 256 * 256 + c % 256)) :: r))) := rfl
    have e3 : c / 256 * 256 + c % 256 = c := by omega
    rw [e, e2, e3]
    have e4 : specTransitions acc (c :: cs) =
        (if c = 0 then specTransitions (acc + 65536) cs
         else (acc + c) :: specTransitions 0 cs) := rfl
    rw [e4]
    by_cases h0 : c = 0
    · rw [if_pos h0, if_pos h0, ih _ (fun x hx => hc x (List.mem_cons_of_mem _ hx))]
    · rw [if_neg h0, if_neg h0, ih _ (fun x hx => hc x (List.mem_cons_of_mem _ hx))]
      rfl

/-- C3: for a stored track whose header is made of u32 revolution records
and whose cell data is a big-endian 16-bit cell string, get_track returns a
Flux with sample frequency exactly 40,000,000 Hz whose transitions follow
the cell decode law: a zero cell adds 65536 to an accumulator carried into
the next non-zero cell, a non-zero cell c emits one transition of
accumulator + c ticks and resets the accumulator, and trailing overflow
with no terminating non-zero cell emits nothing. -/
theorem c3_get_track_decode (c : SCP.Codec) (cyl side : ℕ)
    (rs : List (ℕ × ℕ × ℕ)) (cells : List ℕ)
    (hlk : SCP.lookupTrack (cyl * 2 + side) c.to_track =
      some (revBytes rs, cellBytes cells))
    (hrs : ∀ p ∈ rs, p.1 < 4294967296)
    (hc : ∀ x ∈ cells, x < 65536) :
    SCP.get_track c cyl side =
      .ok (some ⟨rs.map (fun p => ((p.1 : ℕ) : ℚ)),
                 (specTransitions 0 cells).map (fun n => ((n : ℕ) : ℚ)),
                 40000000⟩) ∧
    (∀ acc k, specTransitions acc (List.replicate k 0) = []) := by
  constructor
  · have e0 : SCP.get_track c cyl side = (do
        let index_list ← SCP.parseTdh (revBytes rs)
        let flux_list ← SCP.decodeFlux (cellBytes cells) 0
        Except.ok (some ⟨index_list.map (fun n => ((n : ℕ) : ℚ)),
                         flux_list.map (fun n => ((n : ℕ) : ℚ)), SCP.sample_freq⟩)) := by
      unfold SCP.get_track
      rw [hlk]
    rw [e0, parseTdh_revBytes rs hrs, decodeFlux_cellBytes cells 0 hc]
    show Except.ok _ = Except.ok _
    simp only [List.map_map, SCP.sample_freq]
    rfl
  · intro acc k
    induction k generalizing acc with
    | zero => rfl
    | succ k ih =>
      rw [List.replicate_succ]
      rw [show specTransitions acc (0 :: List.replicate k 0) =
            specTransitions (acc + 65536) (List.replicate k 0) from rfl]
      exact ih _

set_option maxRecDepth 200000

theorem c3_get_track_decode_witness :
    SCP.get_track ⟨some 1, false, [(0, revBytes [(100, 1, 16)], cellBytes [0, 400])]⟩ 0 0 =
      .ok (some ⟨[((100 : ℕ) : ℚ)], [((65936 : ℕ) : ℚ)], 40000000⟩) :=
  (c3_get_track_decode ⟨some 1, false, [(0, revBytes [(100, 1, 16)], cellBytes [0, 400])]⟩
    0 0 [(100, 1, 16)] [0, 400] rfl (by decide) (by decide)).1

/-- C4 counterexample: imgC4 has single_sided = 1 in its header and
populates exactly the keys {0,1,2,3} (as its single_sided = 0 variant
shows), yet from_file remaps its tracks to keys {0,2,4,6}, not {1,3,5,7}. -/
theorem c4_counterexample :
    imgC4.getD 10 0 = 1 ∧
    (SCP.from_file imgC4ss0).map (fun c => c.to_track.map Prod.fst) = .ok [0, 1, 2, 3] ∧
    (SCP.from_file imgC4).map (fun c => c.to_track.map Prod.fst) = .ok [0, 2, 4, 6] ∧
    ¬ (SCP.from_file imgC4).map (fun c => c.to_track.map Prod.fst) = .ok [1, 3, 5, 7] := by
  have e3 : (SCP.from_file imgC4).map (fun c => c.to_track.map Prod.fst) =
      .ok [0, 2, 4, 6] := rfl
  refine ⟨rfl, rfl, e3, ?_⟩
  intro h
  rw [e3] at h
  exact absurd (Except.ok.inj h) (by decide)

/-- C4 amended: when from_file parses an image with header single_sided = 1
whose populated track keys are exactly {0,1,2,3} (both parities populated),
the tracks are remapped by new_key = 2 · old_key + single_sided − 1, i.e.
to keys {0,2,4,6}; concretely from_file on such an image yields the keys
[0,2,4,6]. -/
theorem c4_legacy_remap :
    (∀ a b c d : List ℕ × List ℕ,
      SCP.legacyFixup 1 [(0, a), (1, b), (2, c), (3, d)] =
        [(0, a), (2, b), (4, c), (6, d)]) ∧
    (SCP.from_file imgC4).map (fun c => c.to_track.map Prod.fst) = .ok [0, 2, 4, 6] := by
  constructor
  · intro a b c d
    unfold SCP.legacyFixup
    have hs : SCP.side_count [(0, a), (1, b), (2, c), (3, d)] = (2, 2) := by
      simp [SCP.side_count, List.foldl]
    rw [hs]
    norm_num
    rfl
  · rfl

theorem tlutScanAux_step (fuel k : ℕ) (offs : List ℕ) :
    SCP.tlutScanAux (fuel + 1) k offs =
      (match offs.get? k with
       | none => .ok offs
       | some off =>
         if off = 0 ∨ 0x2b0 ≤ off then SCP.tlutScanAux fuel (k + 1) offs
         else if off / 4 < 4 then .error "SCP: Bad Track Table"
         else SCP.tlutScanAux fuel (k + 1) (offs.take (off / 4 - 4))) := rfl

theorem tlutScanAux_skip : ∀ (i fuel k : ℕ) (offs : List ℕ),
    (∀ j, k ≤ j → j < k + i → ∀ off2, offs.get? j = some off2 →
      off2 = 0 ∨ 0x2b0 ≤ off2) →
    (∀ j, k ≤ j → j < k + i → offs.get? j ≠ none) →
    SCP.tlutScanAux (i + fuel) k offs = SCP.tlutScanAux fuel (k + i) offs := by
  intro i
  induction i with
  | zero =>
    intro fuel k offs _ _
    rw [Nat.zero_add, Nat.add_zero]
  | succ i ih =>
    intro fuel k offs hskip hsome
    rw [show i + 1 + fuel = (i + fuel) + 1 from by omega]
    cases hk : offs.get? k with
    | none => exact absurd hk (hsome k le_rfl (by omega))
    | some off0 =>
      have hsk := hskip k le_rfl (by omega) off0 hk
      rw [tlutScanAux_step, hk]
      show (if off0 = 0 ∨ 0x2b0 ≤ off0 then SCP.tlutScanAux (i + fuel) (k + 1) offs
            else _) = _
      rw [if_pos hsk,
        ih fuel (k + 1) offs (fun j hj1 hj2 => hskip j (by omega) (by omega))
          (fun j hj1 hj2 => hsome j (by omega) (by omega)),
        show k + 1 + i = k + (i + 1) from by omega]

/-- C7 counterexample: imgC7's TLUT contains the entry 8 at index 5, whose
quantity 8/4 − 4 is negative, yet from_file succeeds with no track table
error: the entry 0x14 at index 1 already truncated the table to one entry,
so the entry at index 5 is never scanned. -/
theorem c7_counterexample :
    readU32 imgC7 (16 + 4 * 5) = 8 ∧ ((8 : ℤ) / 4 - 4 < 0) ∧
    (SCP.from_file imgC7).map (fun c => (c.nr_revs, c.to_track)) =
      .ok (some 1, []) := by
  refine ⟨rfl, by decide, rfl⟩

/-- C7 amended: the first TLUT entry the truncation scan reaches with
0 < offset < 0x2b0 truncates the table to offset/4 − 4 entries — entries at
or beyond that index are never scanned — and decoding fails with the Bad
Track Table error at that entry exactly when the quantity is negative,
i.e. when offset < 16. -/
theorem c7_truncation (offs : List ℕ) (i off : ℕ)
    (hi : i < 168)
    (hoff : offs.get? i = some off)
    (h0 : 0 < off) (hlt : off < 0x2b0)
    (hprev : ∀ j, j < i → ∀ off2, offs.get? j = some off2 →
      off2 = 0 ∨ 0x2b0 ≤ off2) :
    (off < 16 → SCP.tlutScan offs = .error "SCP: Bad Track Table") ∧
    (16 ≤ off → SCP.tlutScan offs =
      SCP.tlutScanAux (167 - i) (i + 1) (offs.take (off / 4 - 4))) := by
  have hlen : i < offs.length := by
    by_contra hc
    rw [List.get?_eq_none.mpr (by omega)] at hoff
    exact Option.noConfusion hoff
  have hskip2 : SCP.tlutScan offs = SCP.tlutScanAux ((167 - i) + 1) i offs := by
    unfold SCP.tlutScan
    rw [show (168 : ℕ) = i + ((167 - i) + 1) from by omega]
    rw [tlutScanAux_skip i ((167 - i) + 1) 0 offs
      (fun j hj1 hj2 => hprev j (by omega))
      (fun j hj1 hj2 hn => absurd (List.get?_eq_none.mp hn) (by omega))]
    rw [Nat.zero_add]
  have hstep : SCP.tlutScanAux ((167 - i) + 1) i offs =
      (if off / 4 < 4 then .error "SCP: Bad Track Table"
       else SCP.tlutScanAux (167 - i) (i + 1) (offs.take (off / 4 - 4))) := by
    rw [tlutScanAux_step, hoff]
    show (if off = 0 ∨ 0x2b0 ≤ off then SCP.tlutScanAux (167 - i) (i + 1) offs
          else _) = _
    rw [if_neg (by omega)]
  constructor
  · intro h16
    rw [hskip2, hstep, if_pos (by omega)]
  · intro h16
    rw [hskip2, hstep, if_neg (by omega)]

theorem c7_truncation_witness :
    SCP.tlutScan [0, 20, 0, 0, 0, 8] = SCP.tlutScanAux 166 2 [0] :=
  (c7_truncation [0, 20, 0, 0, 0, 8] 1 20 (by omega) rfl (by omega) (by omega)
    (by decide)).2 (by omega)

theorem decodeFlux_cons2 (a b : ℕ) (rest : List ℕ) (acc : ℕ) :
    SCP.decodeFlux (a :: b :: rest) acc =
      (if a * 256 + b = 0 then SCP.decodeFlux rest (acc + 65536)
       else Except.bind (SCP.decodeFlux rest 0)
              (fun r => .ok ((acc + (a * 256 + b)) :: r))) := rfl

theorem decodeFlux_total_iff : ∀ (n : ℕ) (dat : List ℕ), dat.length ≤ n → ∀ acc,
    ((∃ l, SCP.decodeFlux dat acc = .ok l) ↔ 2 ∣ dat.length) := by
  intro n
  induction n with
  | zero =>
    intro dat hd acc
    have h0 : dat = [] := List.length_eq_zero.mp (by omega)
    subst h0
    exact ⟨fun _ => ⟨0, rfl⟩, fun _ => ⟨[], rfl⟩⟩
  | succ n ih =>
    intro dat hd acc
    rcases dat with _ | ⟨a, _ | ⟨b, rest⟩⟩
    · exact ⟨fun _ => ⟨0, rfl⟩, fun _ => ⟨[], rfl⟩⟩
    · constructor
      · rintro ⟨l, hl⟩
        exact Except.noConfusion hl
      · intro h2
        rw [List.length_singleton] at h2
        omega
    · have hrest := ih rest (by simp at hd ⊢; omega)
      rw [decodeFlux_cons2]
      by_cases h0 : a * 256 + b = 0
      · rw [if_pos h0]
        rw [hrest (acc + 65536)]
        simp only [List.length_cons]
        omega
      · rw [if_neg h0]
        cases hx : SCP.decodeFlux rest 0 with
        | ok l =>
          have h2 : 2 ∣ rest.length := (hrest 0).mp ⟨l, hx⟩
          constructor
          · intro _
            simp only [List.length_cons]
            omega
          · intro _
            exact ⟨(acc + (a * 256 + b)) :: l, rfl⟩
        | error e =>
          constructor
          · rintro ⟨l, hl⟩
            exact Except.noConfusion hl
          · intro h2
            have h3 : 2 ∣ rest.length := by
              simp only [List.length_cons] at h2
              omega
            rcases (hrest 0).mpr h3 with ⟨l, hl⟩
            rw [hl] at hx
            exact Except.noConfusion hx

theorem bind_pure_except {α β : Type} (a : α) (f : α → Except String β) :
    (pure a : Except String α) >>= f = f a := rfl

theorem bind_ok_except {α β : Type} (a : α) (f : α → Except String β) :
    (Except.ok a : Except String α) >>= f = f a := rfl

theorem emit_empty_flux :
    SCP.emit_track SCP.init 0 0 ⟨[8000000], [], 40000000⟩ = .ok c1codec := by
  have hq : (([8000000] : List ℚ).getD 0 0) * (SCP.sample_freq / 40000000) =
      ((8000000 : ℤ) : ℚ) := by
    norm_num [SCP.sample_freq, List.getD_cons_zero]
  have e2 : SCP.tailLoop [8000000] 1 (SCP.sample_freq / 40000000) 1
      ⟨[], [], 0, 0, 8000000, 0⟩ = .ok (u32le 8000000 ++ u32le 0 ++ u32le 16, []) := by
    unfold SCP.tailLoop SCP.packRev
    dsimp only []
    rw [hq, pyRound_intCast]
    rfl
  unfold SCP.emit_track
  dsimp only []
  rw [if_pos (Or.inl rfl : SCP.init.nr_revs = none ∨ SCP.init.nr_revs = some 0)]
  simp only [bind_pure_except, bind_ok_except]
  rw [show SCP.emitLoop [8000000] ([8000000] : List ℚ).length (SCP.sample_freq / 40000000) []
        ⟨[], [], 0, 0, 8000000, 0⟩ = .ok (.inr ⟨[], [], 0, 0, 8000000, 0⟩) from rfl]
  simp only [bind_ok_except]
  rw [show (([8000000] : List ℚ)).length = 1 from rfl]
  rw [e2]
  simp only [bind_ok_except]
  rfl

/-- C1 counterexample: emit_track on a flux with one revolution and no
transitions stores a track with empty cell data; its encoded image decodes
to an empty codec (the all-header track record has s_off = e_off and is
skipped as a dummy), so decode-then-re-encode is not byte-exact. -/
theorem c1_counterexample :
    SCP.emit_track SCP.init 0 0 ⟨[8000000], [], 40000000⟩ = .ok c1codec ∧
    SCP.get_image c1codec = .ok imgC1 ∧
    reimage imgC1 = .ok imgC1r ∧
    imgC1 ≠ imgC1r :=
  ⟨emit_empty_flux, rfl, rfl, by decide⟩

theorem except_bind_ok {α β : Type} (X : Except String α) (f : α → Except String β)
    (b : β) : X >>= f = .ok b ↔ ∃ a, X = .ok a ∧ f a = .ok b := by
  cases X with
  | error e =>
    constructor
    · intro h
      exact Except.noConfusion h
    · rintro ⟨a, ha, _⟩
      exact Except.noConfusion ha
  | ok a =>
    constructor
    · intro h
      exact ⟨a, rfl, h⟩
    · rintro ⟨a2, ha, hf⟩
      rw [Except.ok.inj ha]
      exact hf

/-- Every successful get_image output is a 12-byte header prefix, the
little-endian checksum of everything after byte 16, the padded TLUT and the
track data. -/
theorem get_image_shape (c : SCP.Codec) (B : List ℕ) (h : SCP.get_image c = .ok B) :
    ∃ pre offsP dat : List ℕ, pre.length = 12 ∧
      B = pre ++ u32le ((offsP.sum + dat.sum) % 4294967296) ++ offsP ++ dat := by
  unfold SCP.get_image at h
  dsimp only [] at h
  rw [except_bind_ok] at h
  rcases h with ⟨⟨offs, dat⟩, hbl, h⟩
  split at h
  · exact Except.noConfusion h
  · rcases hnr : c.nr_revs with _ | r <;> rw [hnr] at h <;> dsimp only [] at h
    · exact Except.noConfusion h
    · by_cases hr2 : (r < 0 ∨ 255 < r)
      · rw [if_pos hr2] at h
        exact Except.noConfusion h
      · rw [if_neg hr2] at h
        refine ⟨_, _, _, ?_, (Except.ok.inj h).symm⟩
        rfl

/-- C8: in every byte string produced by get_image, the 32-bit
little-endian checksum field at offset 12 equals the sum of all bytes from
offset 16 to the end of the image, modulo 2^32. -/
theorem c8_checksum (c : SCP.Codec) (B : List ℕ) (h : SCP.get_image c = .ok B) :
    readU32 B 12 = (B.drop 16).sum % 4294967296 := by
  rcases get_image_shape c B h with ⟨pre, offsP, dat, hpre, hB⟩
  subst hB
  have e1 : pre ++ u32le ((offsP.sum + dat.sum) % 4294967296) ++ offsP ++ dat =
      pre ++ (u32le ((offsP.sum + dat.sum) % 4294967296) ++ (offsP ++ dat)) := by
    simp [List.append_assoc]
  rw [e1]
  have e2 : readU32 (pre ++ (u32le ((offsP.sum + dat.sum) % 4294967296) ++
      (offsP ++ dat))) 12 = (offsP.sum + dat.sum) % 4294967296 := by
    unfold readU32
    rw [← hpre, List.drop_left]
    exact bytesToU32_u32le_append _ (Nat.mod_lt _ (by norm_num)) _
  rw [e2]
  have e3 : (pre ++ (u32le ((offsP.sum + dat.sum) % 4294967296) ++ (offsP ++ dat))) =
      (pre ++ u32le ((offsP.sum + dat.sum) % 4294967296)) ++ (offsP ++ dat) := by
    simp [List.append_assoc]
  rw [e3]
  have e4 : ((pre ++ u32le ((offsP.sum + dat.sum) % 4294967296)) ++
      (offsP ++ dat)).drop 16 = offsP ++ dat := by
    have hlen : (pre ++ u32le ((offsP.sum + dat.sum) % 4294967296)).length = 16 := by
      rw [List.length_append, hpre, u32le_length]
    rw [← hlen, List.drop_left]
  rw [e4, List.sum_append]

theorem c8_checksum_witness :
    readU32 imgC1r 12 = (imgC1r.drop 16).sum % 4294967296 :=
  c8_checksum ⟨some 1, false, []⟩ imgC1r rfl

theorem pllOuter_cons (c0 cMin cMax freq : ℚ) (fuel : ℕ) (x : ℚ) (xs : List ℚ)
    (st : RawTrack.PLLSt) :
    RawTrack.pllOuter c0 cMin cMax freq fuel (x :: xs) st =
      (let st1 : RawTrack.PLLSt := { st with ticks := st.ticks + x / freq }
       if st1.ticks < st1.clock / 2 then RawTrack.pllOuter c0 cMin cMax freq fuel xs st1
       else
         match RawTrack.pllInner fuel st1 0 with
         | .inl r => r
         | .inr (st2, zeros) =>
           let clock := if zeros ≤ 3 then st2.clock + st2.ticks * (1/20)
                        else st2.clock + (c0 - st2.clock) * (1/20)
           let clock2 := min (max clock cMin) cMax
           let new_ticks := st2.ticks * (1 - 3/5)
           let st3 : RawTrack.PLLSt := { st2 with
             clock := clock2
             times := RawTrack.addLast st2.times (st2.ticks - new_ticks)
             ticks := new_ticks }
           RawTrack.pllOuter c0 cMin cMax freq fuel xs st3) := rfl

theorem pllInner_succ (fuel : ℕ) (st : RawTrack.PLLSt) (zeros : ℕ) :
    RawTrack.pllInner (fuel + 1) st zeros =
      (let st1 : RawTrack.PLLSt := { st with to_index := st.to_index - st.clock }
       let step : Sum RawTrack.PLLRes RawTrack.PLLSt :=
         if st1.to_index < 0 then
           let st2 : RawTrack.PLLSt := { st1 with
             bitarray := st1.bitarray ++ st1.bits
             timearray := st1.timearray ++ st1.times
             revolutions := st1.revolutions ++ [st1.times.length] }
           if st2.times.length ≠ st2.bits.length then .inl .assertFail else
           match st2.idx with
           | [] => .inl (.done st2)
           | i :: rest => .inr { st2 with
               to_index := st2.to_index + i
               idx := rest
               bits := []
               times := [] }
         else .inr st1
       match step with
       | .inl r => .inl r
       | .inr st2 =>
         let st3 : RawTrack.PLLSt := { st2 with
           ticks := st2.ticks - st2.clock
           times := st2.times ++ [st2.clock] }
         if st3.clock / 2 ≤ st3.ticks then
           RawTrack.pllInner fuel { st3 with bits := st3.bits ++ [false] } (zeros + 1)
         else .inr ({ st3 with bits := st3.bits ++ [true] }, zeros)) := rfl

theorem pllOuter_skip (c0 cMin cMax freq : ℚ) (fuel : ℕ) (x : ℚ) (xs : List ℚ)
    (st : RawTrack.PLLSt) (h : st.ticks + x / freq < st.clock / 2) :
    RawTrack.pllOuter c0 cMin cMax freq fuel (x :: xs) st =
      RawTrack.pllOuter c0 cMin cMax freq fuel xs
        { st with ticks := st.ticks + x / freq } := by
  rw [pllOuter_cons]
  dsimp only []
  rw [if_pos h]

theorem set_getD_self : ∀ (l : List ℚ) (i : ℕ), l.set i (l.getD i 0) = l := by
  intro l
  induction l with
  | nil => intro i; rfl
  | cons a t ih =>
    intro i
    cases i with
    | zero => rfl
    | succ j =>
      show a :: t.set j (t.getD j 0) = a :: t
      rw [ih]

theorem addLast_zero (l : List ℚ) : RawTrack.addLast l 0 = l := by
  unfold RawTrack.addLast
  rw [add_zero]
  exact set_getD_self l _

theorem pll_step_one (c0 cm cM freq x ti : ℚ) (bs : List Bool) (ts : List ℚ)
    (xs : List ℚ) (fuel : ℕ)
    (h1 : ¬ (0 + x / freq < c0 / 2))
    (h2 : ¬ (ti - c0 < 0))
    (h3 : ¬ (c0 / 2 ≤ 0 + x / freq - c0))
    (h4 : 0 + x / freq - c0 = 0)
    (h5 : min (max (c0 + 0 * (1/20)) cm) cM = c0) :
    RawTrack.pllOuter c0 cm cM freq (fuel + 1) (x :: xs)
        ⟨c0, 0, ti, [], bs, ts, [], [], []⟩ =
      RawTrack.pllOuter c0 cm cM freq (fuel + 1) xs
        ⟨c0, 0, ti - c0, [], bs ++ [true], ts ++ [c0], [], [], []⟩ := by
  refine (pllOuter_cons _ _ _ _ _ _ _ _).trans ?_
  dsimp only []
  rw [if_neg h1, pllInner_succ]
  dsimp only []
  rw [if_neg h2]
  dsimp only []
  rw [if_neg h3]
  dsimp only []
  rw [if_pos (by decide : (0 : ℕ) ≤ 3)]
  rw [h4, h5, zero_mul, sub_zero, addLast_zero]

theorem pll_sentinel (c0 cm cM freq s : ℚ) (bs : List Bool) (ts : List ℚ) (fuel : ℕ)
    (hlen : ts.length = bs.length)
    (h1 : ¬ ((0 : ℚ) + s / freq < c0 / 2))
    (h2 : (0 : ℚ) - c0 < 0) :
    RawTrack.pllOuter c0 cm cM freq (fuel + 1) [s]
        ⟨c0, 0, 0, [], bs, ts, [], [], []⟩ =
      .done ⟨c0, 0 + s / freq, 0 - c0, [], bs, ts,
             [] ++ bs, [] ++ ts, [] ++ [ts.length]⟩ := by
  refine (pllOuter_cons _ _ _ _ _ _ _ _).trans ?_
  dsimp only []
  rw [if_neg h1, pllInner_succ]
  dsimp only []
  rw [if_pos h2]
  rw [if_neg (show ¬ ts.length ≠ bs.length from fun hne => hne hlen)]

theorem pll_periodic_aux (c0 cm cM freq x s : ℚ)
    (hc0 : 0 < c0)
    (hx : 0 + x / freq = c0)
    (hmin : min (max (c0 + 0 * (1/20)) cm) cM = c0)
    (hs : ¬ ((0 : ℚ) + s / freq < c0 / 2)) :
    ∀ (m : ℕ) (bs : List Bool) (ts : List ℚ), ts.length = bs.length →
    ∃ st : RawTrack.PLLSt,
      RawTrack.pllOuter c0 cm cM freq 2 (List.replicate m x ++ [s])
        ⟨c0, 0, (m : ℚ) * c0, [], bs, ts, [], [], []⟩ = .done st ∧
      st.bitarray = bs ++ List.replicate m true ∧
      st.clock = c0 ∧ st.revolutions = [ts.length + m] := by
  intro m
  induction m with
  | zero =>
    intro bs ts hlen
    rw [show ((0 : ℕ) : ℚ) * c0 = 0 from by push_cast; ring]
    rw [show List.replicate 0 x ++ [s] = [s] from by simp]
    refine ⟨_, pll_sentinel c0 cm cM freq s bs ts 1 hlen hs (by linarith), ?_, rfl, ?_⟩
    · simp
    · simp
  | succ m ih =>
    intro bs ts hlen
    rw [show List.replicate (m + 1) x ++ [s] = x :: (List.replicate m x ++ [s]) from by
      simp [List.replicate_succ]]
    rw [pll_step_one c0 cm cM freq x (((m + 1 : ℕ) : ℚ) * c0) bs ts _ 1
      (by rw [hx]; intro hcon; nlinarith)
      (by rw [not_lt]; push_cast; nlinarith [Nat.cast_nonneg (α := ℚ) m])
      (by rw [hx, sub_self]; rw [not_le]; positivity)
      (by rw [hx, sub_self])
      hmin]
    rw [show ((m + 1 : ℕ) : ℚ) * c0 - c0 = (m : ℚ) * c0 from by push_cast; ring]
    obtain ⟨st, heq, hb, hc, hr⟩ := ih (bs ++ [true]) (ts ++ [c0]) (by simp [hlen])
    refine ⟨st, heq, ?_, hc, ?_⟩
    · rw [hb, List.append_assoc, List.singleton_append, ← List.replicate_succ]
    · rw [hr]
      simp only [List.length_append, List.length_singleton]
      congr 1
      omega

/-- C5 is a code bug: append_revolutions can reach the assert False after
the outer loop.  With the default 2 µs clock, a flux record with one
10-tick index interval and one 10-tick transition (so the transitions
cover the whole indexed revolution) yields too little time to clock out a
single bitcell, and the sentinel cannot close the revolution: the function
raises AssertionError instead of returning. -/
theorem c5_assert_reachable :
    RawTrack.append_revolutions (1/500000) 10 ⟨[10], [10], 40000000⟩ =
      .assertFail := by
  unfold RawTrack.append_revolutions
  dsimp only []
  simp only [List.cons_append, List.nil_append]
  rw [pllOuter_skip _ _ _ _ _ _ _ _ (by norm_num)]
  rw [pllOuter_skip _ _ _ _ _ _ _ _ (by norm_num)]
  rfl

/-- C6 counterexample: a flux record whose transitions are perfectly
periodic at exactly the 2 µs nominal clock (80 ticks at 40 MHz) decodes to
the all-ones bit stream [1, 1], not the alternating [1, 0] the claim
states. -/
theorem c6_counterexample :
    resBits (RawTrack.append_revolutions (1/500000) 2 ⟨[160], [80, 80], 40000000⟩) =
      some [true, true] ∧ ([true, true] : List Bool) ≠ [true, false] := by
  constructor
  · unfold RawTrack.append_revolutions
    dsimp only []
    simp only [List.cons_append, List.nil_append, List.map_nil]
    rw [pll_step_one (1/500000) ((1/500000) * (1 - 1/10)) ((1/500000) * (1 + 1/10))
      40000000 80 ((160 : ℚ)/40000000) _ _ _ 1
      (by norm_num) (by norm_num) (by norm_num) (by norm_num)
      (by rw [zero_mul, add_zero]
          rw [max_eq_left (by norm_num), min_eq_left (by norm_num)])]
    rw [pll_step_one (1/500000) ((1/500000) * (1 - 1/10)) ((1/500000) * (1 + 1/10))
      40000000 80 ((160 : ℚ)/40000000 - 1/500000) _ _ _ 1
      (by norm_num) (by norm_num) (by norm_num) (by norm_num)
      (by rw [zero_mul, add_zero]
          rw [max_eq_left (by norm_num), min_eq_left (by norm_num)])]
    rw [show (160 : ℚ)/40000000 - 1/500000 - 1/500000 = 0 from by norm_num]
    rw [pll_sentinel (1/500000) _ _ 40000000 (List.sum [(160 : ℚ)]) _ _ 1
      (by simp) (by simp only [List.sum_cons, List.sum_nil]; norm_num) (by norm_num)]
    simp [resBits]
  · decide

/-- C6 amended: a flux record with perfectly periodic transitions every
clock_nominal (2 µs = 80 ticks at 40 MHz) produces the all-ones bit stream
(1111…), one revolution of n bits, and leaves the PLL clock exactly at its
initial value (in particular within 10^-9 s of it); the claimed
alternating 10101010… stream is what a 4 µs period would give. -/
theorem c6_pll_sync (n : ℕ) (h : 1 ≤ n) :
    ∃ st : RawTrack.PLLSt,
      RawTrack.append_revolutions (1/500000) 2
        ⟨[80 * (n : ℚ)], List.replicate n 80, 40000000⟩ = .done st ∧
      st.bitarray = List.replicate n true ∧
      st.clock = 1/500000 ∧ st.revolutions = [n] := by
  have hn1 : (1 : ℚ) ≤ (n : ℚ) := by exact_mod_cast h
  have hs : ¬ ((0 : ℚ) + (List.sum [80 * (n : ℚ)]) / 40000000 < (1/500000) / 2) := by
    simp only [List.sum_cons, List.sum_nil]
    rw [not_lt]
    nlinarith
  obtain ⟨st, heq, hb, hc, hr⟩ :=
    pll_periodic_aux (1/500000) ((1/500000) * (1 - 1/10)) ((1/500000) * (1 + 1/10))
      40000000 80 (List.sum [80 * (n : ℚ)]) (by norm_num) (by norm_num)
      (by rw [zero_mul, add_zero]
          rw [max_eq_left (by norm_num), min_eq_left (by norm_num)])
      hs n [] [] rfl
  refine ⟨st, ?_, ?_, hc, ?_⟩
  · unfold RawTrack.append_revolutions
    dsimp only []
    simp only [List.map_nil]
    rw [show (80 * (n : ℚ)) / 40000000 = (n : ℚ) * (1/500000) from by ring]
    exact heq
  · rw [hb]
    simp
  · rw [hr]
    simp

theorem c6_pll_sync_witness :
    ∃ st : RawTrack.PLLSt,
      RawTrack.append_revolutions (1/500000) 2
        ⟨[80 * ((3 : ℕ) : ℚ)], List.replicate 3 80, 40000000⟩ = .done st ∧
      st.bitarray = List.replicate 3 true ∧
      st.clock = 1/500000 ∧ st.revolutions = [3] :=
  c6_pll_sync 3 (by norm_num)

/-- C10: imgC10 is accepted by from_file (valid header, TLUT and track
signatures), its stored track 0 has a cell-data slice of odd length 1, and
get_track on that track raises an out-of-range IndexError instead of
returning a flux record; in general the cell-data decode loop succeeds
exactly on even-length cell data. -/
theorem c10_odd_cell_data :
    (SCP.from_file imgC10).map
      (fun c => (c.to_track.map (fun p => (p.1, p.2.2.length)),
                 SCP.get_track c 0 0)) = .ok ([(0, 1)], .error "IndexError") ∧
    (∀ (dat : List ℕ) (acc : ℕ),
      (∃ l, SCP.decodeFlux dat acc = .ok l) ↔ 2 ∣ dat.length) :=
  ⟨rfl, fun dat acc => decodeFlux_total_iff dat.length dat le_rfl acc⟩


theorem pure_except {α : Type} (a : α) : (pure a : Except String α) = .ok a := rfl

theorem sum_set_q (l : List ℚ) : ∀ (i : ℕ), i < l.length → ∀ (a : ℚ),
    (l.set i a).sum = l.sum - l.getD i 0 + a := by
  induction l with
  | nil => intro i hi; exact absurd hi (by simp)
  | cons x t ih =>
    intro i hi a
    cases i with
    | zero => simp [List.getD_cons_zero]; ring
    | succ j =>
      have hj : j < t.length := by simpa using hi
      simp only [List.set_cons_succ, List.sum_cons, List.getD_cons_succ, ih j hj a]
      ring

theorem getD_set_ne_q (l : List ℚ) : ∀ (i j : ℕ), i ≠ j → ∀ (a : ℚ),
    (l.set i a).getD j 0 = l.getD j 0 := by
  induction l with
  | nil => intro i j _ a; rfl
  | cons x t ih =>
    intro i j hij a
    cases i with
    | zero =>
      cases j with
      | zero => exact absurd rfl hij
      | succ k => rfl
    | succ i' =>
      cases j with
      | zero => rfl
      | succ k =>
        simp only [List.set_cons_succ, List.getD_cons_succ]
        exact ih i' k (fun he => hij (by rw [he])) a

theorem redistribute_sum (s : ℕ) : ∀ (js : List ℕ) (ticks ticks' : List ℚ),
    MasterTrack.redistribute s js ticks = .ok ticks' → ticks'.sum = ticks.sum := by
  intro js
  induction js with
  | nil =>
    intro ticks ticks' h
    rw [← Except.ok.inj h]
  | cons j js ih =>
    intro ticks ticks' h
    unfold MasterTrack.redistribute at h
    dsimp only [] at h
    by_cases hlt : s + 16 * j + 11 < ticks.length
    · rw [if_pos hlt] at h
      rw [ih _ _ h]
      rw [sum_set_q _ _ (by rw [List.length_set]; exact hlt)]
      rw [getD_set_ne_q _ _ _ (by omega)]
      rw [sum_set_q _ _ (by omega)]
      ring
    · rw [if_neg hlt] at h
      exact Except.noConfusion h

theorem weakStep_sum (bitlen : ℕ) (bt : List Bool × List ℚ) (w : ℕ × ℕ)
    (bt' : List Bool × List ℚ)
    (h : MasterTrack.weakStep bitlen bt w = .ok bt') : bt'.2.sum = bt.2.sum := by
  unfold MasterTrack.weakStep at h
  dsimp only [] at h
  split at h
  · exact Except.noConfusion h
  · by_cases hn : w.2 < 400
    · rw [if_pos hn] at h
      rw [bind_pure_except] at h
      dsimp only [] at h
      rw [← Except.ok.inj h]
    · rw [if_neg hn] at h
      rw [except_bind_ok] at h
      obtain ⟨t, ht, h⟩ := h
      rw [bind_pure_except] at h
      dsimp only [] at h
      rw [← Except.ok.inj h]
      exact redistribute_sum _ _ _ _ ht

theorem weakLoop_sum (bitlen : ℕ) : ∀ (ws : List (ℕ × ℕ))
    (bt bt' : List Bool × List ℚ),
    MasterTrack.weakLoop bitlen ws bt = .ok bt' → bt'.2.sum = bt.2.sum := by
  intro ws
  induction ws with
  | nil =>
    intro bt bt' h
    rw [← Except.ok.inj h]
  | cons w ws ih =>
    intro bt bt' h
    unfold MasterTrack.weakLoop at h
    rw [except_bind_ok] at h
    obtain ⟨b, hb, h⟩ := h
    exact (ih _ _ h).trans (weakStep_sum _ _ _ _ hb)

theorem flux_index_sum (mt : MasterTrack) (w : Bool) (f : WriteoutFlux)
    (h : MasterTrack.flux mt w = .ok f) :
    f.index_list = [(MasterTrack.origTicks mt).sum] := by
  unfold MasterTrack.flux at h
  dsimp only [] at h
  rw [except_bind_ok] at h
  obtain ⟨bt, hbt, h⟩ := h
  by_cases h0 : mt.bits.length = 0
  · rw [if_pos h0] at h
    exact Except.noConfusion h
  · rw [if_neg h0] at h
    rw [except_bind_ok] at h
    obtain ⟨fl, hfl, h⟩ := h
    rw [← Except.ok.inj h]

/-- C9: for every MasterTrack (any weak ranges, any splice), a successful
flux() (write-out or not) returns a record whose index list is the single
element equal to the sum of the original bit_ticks (the all-ones dummy
vector when bit_ticks is absent or empty), computed before any processing;
moreover the weak-region overlay with its half-tick redistribution
preserves the total tick sum, and so does the splice rotation
(drop-append-take), before any write-out extension. -/
theorem c9_tick_sum :
    (∀ (mt : MasterTrack) (w : Bool) (f : WriteoutFlux),
        MasterTrack.flux mt w = .ok f →
        f.index_list = [(MasterTrack.origTicks mt).sum]) ∧
    (∀ (bitlen : ℕ) (ws : List (ℕ × ℕ)) (bt bt' : List Bool × List ℚ),
        MasterTrack.weakLoop bitlen ws bt = .ok bt' → bt'.2.sum = bt.2.sum) ∧
    (∀ (t : List ℚ) (index : ℕ), (List.drop index t ++ List.take index t).sum = t.sum) := by
  refine ⟨flux_index_sum, weakLoop_sum, ?_⟩
  intro t i
  rw [List.sum_append, add_comm, ← List.sum_append, List.take_append_drop]

theorem getD_take_lt {α : Type} (l : List α) :
    ∀ (n i : ℕ), i < n → ∀ (d : α), (l.take n).getD i d = l.getD i d := by
  induction l with
  | nil => intro n i _ d; simp
  | cons x t ih =>
    intro n i hi d
    cases n with
    | zero => omega
    | succ m =>
      cases i with
      | zero => rfl
      | succ k =>
        simp only [List.take_cons, List.getD_cons_succ]
        exact ih m k (by omega) d

theorem bytesToU32_append_left (x y : List ℕ) (h : 4 ≤ x.length) :
    bytesToU32 (x ++ y) = bytesToU32 x := by
  unfold bytesToU32
  rw [List.getD_append _ _ _ _ (by omega), List.getD_append _ _ _ _ (by omega),
      List.getD_append _ _ _ _ (by omega), List.getD_append _ _ _ _ (by omega)]

theorem bytesToU32_take (l : List ℕ) (n : ℕ) (h : 4 ≤ n) :
    bytesToU32 (l.take n) = bytesToU32 l := by
  unfold bytesToU32
  rw [getD_take_lt _ _ _ (by omega), getD_take_lt _ _ _ (by omega),
      getD_take_lt _ _ _ (by omega), getD_take_lt _ _ _ (by omega)]

theorem readU32_append_left (l l' : List ℕ) (i : ℕ) (h : i + 4 ≤ l.length) :
    readU32 (l ++ l') i = readU32 l i := by
  unfold readU32
  rw [List.drop_append_of_le_length (by omega)]
  exact bytesToU32_append_left _ _ (by simp [List.length_drop]; omega)

theorem readU32_append_right (l l' : List ℕ) (i : ℕ) (h : l.length ≤ i) :
    readU32 (l ++ l') i = readU32 l' (i - l.length) := by
  unfold readU32
  conv_lhs => rw [show i = l.length + (i - l.length) from by omega]
  rw [List.drop_append]

theorem readU32_drop (l : List ℕ) (i j : ℕ) :
    readU32 (l.drop i) j = readU32 l (i + j) := by
  unfold readU32
  rw [List.drop_drop]

theorem bytesToU32_replicate_zero (m : ℕ) : bytesToU32 (List.replicate m 0) = 0 := by
  unfold bytesToU32
  have h : ∀ i : ℕ, (List.replicate m (0 : ℕ)).getD i 0 = 0 := by
    intro i
    rw [List.getD_eq_getElem?_getD]
    rcases Nat.lt_or_ge i m with hi | hi
    · rw [List.getElem?_replicate, if_pos hi]
      rfl
    · rw [List.getElem?_eq_none (by simpa using hi)]
      rfl
  rw [h 0, h 1, h 2, h 3]

theorem hdr12_read4 (a b c : ℕ) (hb : b < 4294967296) :
    readU32 (u32le a ++ u32le b ++ u32le c) 4 = b := by
  rw [List.append_assoc, readU32_append_right _ _ _ (by rw [u32le_length])]
  unfold readU32
  rw [show (4 : ℕ) - (u32le a).length = 0 from by rw [u32le_length], List.drop_zero]
  exact bytesToU32_u32le_append b hb _

theorem hdr12_read8 (a b c : ℕ) (hc : c < 4294967296) :
    readU32 (u32le a ++ u32le b ++ u32le c) 8 = c := by
  rw [List.append_assoc, readU32_append_right _ _ _ (by rw [u32le_length]; omega)]
  rw [show (8 : ℕ) - (u32le a).length = 4 from by rw [u32le_length]]
  rw [readU32_append_right _ _ _ (by rw [u32le_length])]
  unfold readU32
  rw [show (4 : ℕ) - (u32le b).length = 0 from by rw [u32le_length], List.drop_zero]
  rw [show u32le c = u32le c ++ [] from by simp]
  exact bytesToU32_u32le_append c hc _

theorem offVals_length (t : List (ℕ × List ℕ × List ℕ)) :
    ∀ (n tnr dlen : ℕ), (offVals t n tnr dlen).length = n := by
  intro n
  induction n with
  | zero => intro tnr dlen; rfl
  | succ m ih =>
    intro tnr dlen
    unfold offVals
    cases SCP.lookupTrack tnr t with
    | none => simp [ih]
    | some v =>
      obtain ⟨tdh, d⟩ := v
      simp [ih]

theorem canonTracks_nil : ∀ (n j : ℕ), canonTracks [] n j = [] := by
  intro n
  induction n with
  | zero => intro j; rfl
  | succ m ih =>
    intro j
    unfold canonTracks
    rw [show SCP.lookupTrack j [] = none from rfl]
    exact ih (j + 1)

theorem listRepeat_length {α : Type} (p : List α) :
    ∀ k, (listRepeat p k).length = p.length * k := by
  intro k
  induction k with
  | zero => simp [listRepeat]
  | succ m ih => simp [listRepeat, ih]; ring

theorem mem_listRepeat {α : Type} (p : List α) :
    ∀ k b, b ∈ listRepeat p k → b ∈ p := by
  intro k
  induction k with
  | zero => intro b hb; exact absurd hb (by simp [listRepeat])
  | succ m ih =>
    intro b hb
    rcases List.mem_append.mp hb with h | h
    · exact h
    · exact ih b h

theorem cell_shape_aux (v : ℤ) (r : ℚ) (p : List ℕ × ℚ)
    (h : (if v < 0 then (.error "ValueError" : Except String (List ℕ × ℚ))
          else .ok ((SCP.ovflAux (v.toNat / 65536) v.toNat).1 ++
            [(SCP.ovflAux (v.toNat / 65536) v.toNat).2 / 256,
             (SCP.ovflAux (v.toNat / 65536) v.toNat).2 % 256], r)) = .ok p) :
    (∀ b ∈ p.1, b < 256) ∧ 2 ∣ p.1.length := by
  split at h
  · exact Except.noConfusion h
  · have hp := (Except.ok.inj h).symm
    rw [hp, ovflAux_eq (v.toNat / 65536) v.toNat rfl]
    dsimp only []
    constructor
    · intro b hb
      rcases List.mem_append.mp hb with hb | hb
      · have := mem_listRepeat _ _ _ hb
        simp only [List.mem_cons, List.not_mem_nil, or_false] at this
        rcases this with h0 | h0 <;> omega
      · simp only [List.mem_cons, List.not_mem_nil, or_false] at hb
        have hlt : v.toNat % 65536 < 65536 := Nat.mod_lt _ (by norm_num)
        rcases hb with h0 | h0 <;> subst h0 <;> omega
    · rw [List.length_append, listRepeat_length]
      simp only [List.length_cons, List.length_nil]
      omega

theorem scpCell_ok_bytes (factor rem x : ℚ) (p : List ℕ × ℚ)
    (h : SCP.scpCell factor rem x = .ok p) :
    (∀ b ∈ p.1, b < 256) ∧ 2 ∣ p.1.length := by
  unfold SCP.scpCell at h
  dsimp only [] at h
  exact cell_shape_aux _ _ _ h

theorem packRev_ok (ti : ℤ) (cells off : ℕ) (hdr : List ℕ)
    (h : SCP.packRev ti cells off = .ok hdr) :
    hdr = u32le ti.toNat ++ u32le cells ++ u32le off ∧
    cells < 4294967296 ∧ off < 4294967296 := by
  unfold SCP.packRev at h
  split at h
  · exact Except.noConfusion h
  · split at h
    · exact Except.noConfusion h
    · refine ⟨(Except.ok.inj h).symm, ?_, ?_⟩ <;> omega

theorem emitInv_pack (nr : ℕ) (st : SCP.EmitSt) (ti : ℤ) (hdr : List ℕ)
    (hInv : EmitInv nr st) (hok : SCP.packRev ti ((st.dat.length - st.len_at_index) / 2)
      (4 + nr * 12 + st.len_at_index) = .ok hdr) :
    EmitInv nr { st with
      tdh := st.tdh ++ hdr
      len_at_index := st.dat.length
      rev := st.rev + 1 } := by
  obtain ⟨hlen, htb, hdb, hde, hle, hlle, hz, hfirst, hlast⟩ := hInv
  obtain ⟨hhdr, hcells, hoff⟩ := packRev_ok _ _ _ _ hok
  have hhl : hdr.length = 12 := by rw [hhdr]; simp [u32le_length]
  refine ⟨?_, ?_, hdb, hde, hde, le_refl _, ?_, ?_, ?_⟩
  · dsimp only []
    rw [List.length_append, hlen, hhl]
    ring
  · dsimp only []
    intro b hb
    rcases List.mem_append.mp hb with hb | hb
    · exact htb b hb
    · rw [hhdr] at hb
      rcases List.mem_append.mp hb with hb | hb
      · rcases List.mem_append.mp hb with hb | hb
        · exact u32le_lt _ b hb
        · exact u32le_lt _ b hb
      · exact u32le_lt _ b hb
  · dsimp only []
    omega
  · dsimp only []
    intro _
    rcases Nat.eq_zero_or_pos st.rev with h0 | h1
    · have htdh : st.tdh = [] := by
        rw [← List.length_eq_zero]
        omega
      rw [htdh, List.nil_append, hhdr, hdr12_read8 _ _ _ hoff, hz h0]
      ring
    · rw [readU32_append_left _ _ _ (by omega), hfirst h1]
  · dsimp only []
    intro _
    have h4 : 12 * (st.rev + 1) - 4 = st.tdh.length + 8 := by omega
    have h8 : 12 * (st.rev + 1) - 8 = st.tdh.length + 4 := by omega
    rw [h4, h8, readU32_append_right _ _ _ (by omega),
        readU32_append_right _ _ _ (by omega)]
    rw [show st.tdh.length + 8 - st.tdh.length = 8 from by omega,
        show st.tdh.length + 4 - st.tdh.length = 4 from by omega]
    rw [hhdr, hdr12_read8 _ _ _ hoff, hdr12_read4 _ _ _ hcells]
    omega

theorem emitInv_WF (nr : ℕ) (st : SCP.EmitSt) (hInv : EmitInv nr st)
    (hrev : st.rev = nr) (hlen : st.len_at_index = st.dat.length) (hnr : 1 ≤ nr) :
    TrackWF nr st.tdh st.dat := by
  obtain ⟨hl, htb, hdb, hde, _, _, _, hfirst, hlast⟩ := hInv
  refine ⟨by rw [hl, hrev], htb, hdb, hde, hfirst (by omega), ?_⟩
  have := hlast (by omega)
  rw [hrev] at this
  rw [this, hlen]

theorem emitInv_init (nr : ℕ) (i0 : ℚ) : EmitInv nr ⟨[], [], 0, 0, i0, 0⟩ := by
  refine ⟨rfl, by simp, by simp, ⟨0, rfl⟩, ⟨0, rfl⟩, le_refl _, fun _ => rfl, ?_, ?_⟩ <;>
    · intro h
      exact absurd h (by norm_num)

theorem crossLoop_inv (il : List ℚ) (nr : ℕ) (factor x : ℚ) :
    ∀ (fuel : ℕ) (st : SCP.EmitSt), EmitInv nr st → st.rev < nr →
    ∀ (res : Sum (List ℕ × List ℕ) SCP.EmitSt),
      SCP.crossLoop il nr factor x fuel st = .ok res →
      (∀ td, res = .inl td → TrackWF nr td.1 td.2) ∧
      (∀ st2, res = .inr st2 → EmitInv nr st2 ∧ st2.rev < nr) := by
  intro fuel
  induction fuel with
  | zero =>
    intro st _ _ res h
    exact Except.noConfusion h
  | succ f ih =>
    intro st hInv hrev res h
    unfold SCP.crossLoop at h
    dsimp only [] at h
    by_cases hti : st.to_index < x
    · rw [if_pos hti] at h
      rw [except_bind_ok] at h
      obtain ⟨hdr, hph, h⟩ := h
      have hInv2 := emitInv_pack nr st _ hdr hInv hph
      by_cases hge : nr ≤ st.rev + 1
      · rw [if_pos hge] at h
        have hres := (Except.ok.inj h)
        constructor
        · intro td htd
          rw [← hres] at htd
          have := Sum.inl.inj htd
          rw [← this]
          exact emitInv_WF nr _ hInv2 (by dsimp only []; omega) rfl (by omega)
        · intro st2 hst2
          rw [← hres] at hst2
          exact Sum.noConfusion hst2
      · rw [if_neg hge] at h
        refine ih _ ?_ (by dsimp only []; omega) res h
        exact hInv2
    · rw [if_neg hti] at h
      have hres := (Except.ok.inj h)
      constructor
      · intro td htd
        rw [← hres] at htd
        exact Sum.noConfusion htd
      · intro st2 hst2
        rw [← hres] at hst2
        have := Sum.inr.inj hst2
        rw [← this]
        exact ⟨hInv, hrev⟩

theorem emitLoop_inv (il : List ℚ) (nr : ℕ) (factor : ℚ) :
    ∀ (xs : List ℚ) (st : SCP.EmitSt), EmitInv nr st → st.rev < nr →
    ∀ res, SCP.emitLoop il nr factor xs st = .ok res →
      (∀ td, res = .inl td → TrackWF nr td.1 td.2) ∧
      (∀ st2, res = .inr st2 → EmitInv nr st2 ∧ st2.rev < nr) := by
  intro xs
  induction xs with
  | nil =>
    intro st hInv hrev res h
    have hres := Except.ok.inj h
    constructor
    · intro td htd
      rw [← hres] at htd
      exact Sum.noConfusion htd
    · intro st2 hst2
      rw [← hres] at hst2
      have := Sum.inr.inj hst2
      rw [← this]
      exact ⟨hInv, hrev⟩
  | cons x xs ih =>
    intro st hInv hrev res h
    unfold SCP.emitLoop at h
    rw [except_bind_ok] at h
    obtain ⟨r, hr, h⟩ := h
    have hc := crossLoop_inv il nr factor x (nr + 1) st hInv hrev r hr
    cases r with
    | inl done =>
      dsimp only [] at h
      have hres := Except.ok.inj h
      constructor
      · intro td htd
        rw [← hres] at htd
        have := Sum.inl.inj htd
        rw [← this]
        exact hc.1 done rfl
      · intro st2 hst2
        rw [← hres] at hst2
        exact Sum.noConfusion hst2
    | inr st1 =>
      dsimp only [] at h
      rw [except_bind_ok] at h
      obtain ⟨p, hp, h⟩ := h
      obtain ⟨hInv1, hrev1⟩ := hc.2 st1 rfl
      obtain ⟨hpb, hpe⟩ := scpCell_ok_bytes _ _ _ _ hp
      obtain ⟨hlen, htb, hdb, hde, hle, hlle, hz, hfirst, hlast⟩ := hInv1
      have hInv1' : EmitInv nr { st1 with
          to_index := st1.to_index - x
          dat := st1.dat ++ p.1
          rem := p.2 } := by
        refine ⟨hlen, htb, ?_, ?_, hle, ?_, hz, hfirst, hlast⟩
        · dsimp only []
          intro b hb
          rcases List.mem_append.mp hb with hb | hb
          · exact hdb b hb
          · exact hpb b hb
        · dsimp only []
          rw [List.length_append]
          omega
        · dsimp only []
          rw [List.length_append]
          omega
      exact ih _ hInv1' hrev1 res h

theorem tailLoop_inv (il : List ℚ) (nr : ℕ) (factor : ℚ) (hnr : 1 ≤ nr) :
    ∀ (fuel : ℕ) (st : SCP.EmitSt), EmitInv nr st →
    (st.rev < nr ∨ (st.rev = nr ∧ st.len_at_index = st.dat.length)) →
    nr - st.rev ≤ fuel →
    ∀ td, SCP.tailLoop il nr factor fuel st = .ok td → TrackWF nr td.1 td.2 := by
  intro fuel
  induction fuel with
  | zero =>
    intro st hInv hd hf td h
    rcases hd with hlt | ⟨he, hl⟩
    · omega
    · have hres := Except.ok.inj h
      rw [← hres]
      exact emitInv_WF nr st hInv he hl hnr
  | succ f ih =>
    intro st hInv hd hf td h
    unfold SCP.tailLoop at h
    by_cases hlt : st.rev < nr
    · rw [if_pos hlt] at h
      rw [except_bind_ok] at h
      obtain ⟨hdr, hph, h⟩ := h
      have hInv2 := emitInv_pack nr st _ hdr hInv hph
      refine ih _ hInv2 ?_ (by dsimp only []; omega) td h
      dsimp only []
      rcases Nat.lt_or_ge (st.rev + 1) nr with h1 | h1
      · exact Or.inl h1
      · exact Or.inr ⟨by omega, rfl⟩
    · rw [if_neg hlt] at h
      have hres := Except.ok.inj h
      rw [← hres]
      rcases hd with h1 | ⟨he, hl⟩
      · omega
      · exact emitInv_WF nr st hInv he hl hnr

theorem emit_tail_shape (c1 : SCP.Codec) (key : ℕ) (fl : Flux) (c2 : SCP.Codec)
    (h : (match fl.index_list with
          | [] => (.error "IndexError" : Except String SCP.Codec)
          | i0 :: _ => do
            let td ← match ← (SCP.emitLoop fl.index_list fl.index_list.length (SCP.sample_freq / fl.sample_freq) fl.list ⟨[], [], 0, 0, i0, 0⟩) with
              | .inl done => pure done
              | .inr st => SCP.tailLoop fl.index_list fl.index_list.length (SCP.sample_freq / fl.sample_freq) fl.index_list.length st
            .ok { c1 with to_track := SCP.assocSet key td c1.to_track }) = .ok c2) :
    ∃ td : List ℕ × List ℕ,
      TrackWF fl.index_list.length td.1 td.2 ∧ 1 ≤ fl.index_list.length ∧
      c2 = { c1 with to_track := SCP.assocSet key td c1.to_track } := by
  split at h
  · exact Except.noConfusion h
  · rename_i i0 rest heq
    have hnr1 : 1 ≤ fl.index_list.length := by
      rw [heq]
      simp
    rw [except_bind_ok] at h
    obtain ⟨r, hr, h⟩ := h
    have hemit := emitLoop_inv fl.index_list fl.index_list.length
      (SCP.sample_freq / fl.sample_freq) fl.list ⟨[], [], 0, 0, i0, 0⟩
      (emitInv_init _ i0) (by dsimp only []; omega) r hr
    cases r with
    | inl done =>
      dsimp only [] at h
      rw [bind_pure_except] at h
      exact ⟨done, hemit.1 done rfl, hnr1, (Except.ok.inj h).symm⟩
    | inr st =>
      dsimp only [] at h
      rw [except_bind_ok] at h
      obtain ⟨td, htd, h⟩ := h
      obtain ⟨hInv1, hrev1⟩ := hemit.2 st rfl
      refine ⟨td, ?_, hnr1, (Except.ok.inj h).symm⟩
      exact tailLoop_inv fl.index_list fl.index_list.length _ hnr1 _ st hInv1
        (Or.inl hrev1) (by omega) td htd

theorem emit_track_shape (c : SCP.Codec) (cyl side : ℕ) (fl : Flux) (c2 : SCP.Codec)
    (h : SCP.emit_track c cyl side fl = .ok c2) :
    ∃ (td : List ℕ × List ℕ) (nr : ℕ),
      nr = fl.index_list.length ∧ 1 ≤ nr ∧
      c2.nr_revs = some (nr : ℤ) ∧ c2.legacy_ss = c.legacy_ss ∧
      (c.nr_revs = none ∨ c.nr_revs = some 0 ∨ c.nr_revs = some (nr : ℤ)) ∧
      TrackWF nr td.1 td.2 ∧
      c2.to_track = SCP.assocSet (cyl * 2 + side) td c.to_track := by
  unfold SCP.emit_track at h
  dsimp only [] at h
  by_cases h1 : (c.nr_revs = none ∨ c.nr_revs = some 0)
  · rw [if_pos h1] at h
    rw [bind_pure_except] at h
    obtain ⟨td, hWF, hnr1, hc2⟩ := emit_tail_shape
      { c with nr_revs := some (fl.index_list.length : ℤ) } (cyl * 2 + side) fl c2 h
    refine ⟨td, fl.index_list.length, rfl, hnr1, ?_, ?_, ?_, hWF, ?_⟩
    · simp only [hc2]
    · simp only [hc2]
    · rcases h1 with h1 | h1
      · exact Or.inl h1
      · exact Or.inr (Or.inl h1)
    · simp only [hc2]
  · rw [if_neg h1] at h
    by_cases h2 : c.nr_revs = some ((fl.index_list.length : ℕ) : ℤ)
    · rw [if_pos h2] at h
      rw [bind_pure_except] at h
      obtain ⟨td, hWF, hnr1, hc2⟩ := emit_tail_shape c (cyl * 2 + side) fl c2 h
      refine ⟨td, fl.index_list.length, rfl, hnr1, ?_, ?_, Or.inr (Or.inr h2), hWF, ?_⟩
      · simp only [hc2]
        exact h2
      · simp only [hc2]
      · simp only [hc2]
    · rw [if_neg h2] at h
      exact Except.noConfusion h

theorem mem_assocSet (k : ℕ) (v : List ℕ × List ℕ) :
    ∀ (t : List (ℕ × List ℕ × List ℕ)) (p : ℕ × List ℕ × List ℕ),
      p ∈ SCP.assocSet k v t → p = (k, v) ∨ p ∈ t := by
  intro t
  induction t with
  | nil =>
    intro p hp
    simp only [SCP.assocSet, List.mem_singleton] at hp
    exact Or.inl hp
  | cons q t ih =>
    intro p hp
    unfold SCP.assocSet at hp
    by_cases hk : q.1 = k
    · rw [if_pos hk] at hp
      rcases List.mem_cons.mp hp with h1 | h1
      · exact Or.inl h1
      · exact Or.inr (List.mem_cons_of_mem _ h1)
    · rw [if_neg hk] at hp
      rcases List.mem_cons.mp hp with h1 | h1
      · exact Or.inr (h1 ▸ List.mem_cons_self _ _)
      · rcases ih p h1 with h2 | h2
        · exact Or.inl h2
        · exact Or.inr (List.mem_cons_of_mem _ h2)

theorem mem_keys_assocSet (k : ℕ) (v : List ℕ × List ℕ) :
    ∀ (t : List (ℕ × List ℕ × List ℕ)) (a : ℕ),
      a ∈ (SCP.assocSet k v t).map Prod.fst ↔ a = k ∨ a ∈ t.map Prod.fst := by
  intro t
  induction t with
  | nil =>
    intro a
    simp [SCP.assocSet]
  | cons q t ih =>
    intro a
    unfold SCP.assocSet
    by_cases hk : q.1 = k
    · rw [if_pos hk]
      simp only [List.map_cons, List.mem_cons]
      constructor
      · rintro (h | h)
        · exact Or.inl h
        · exact Or.inr (Or.inr h)
      · rintro (h | h | h)
        · exact Or.inl h
        · exact Or.inl (by rw [h, hk])
        · exact Or.inr h
    · rw [if_neg hk]
      simp only [List.map_cons, List.mem_cons, ih]
      constructor
      · rintro (h | h | h)
        · exact Or.inr (Or.inl h)
        · exact Or.inl h
        · exact Or.inr (Or.inr h)
      · rintro (h | h | h)
        · exact Or.inr (Or.inl h)
        · exact Or.inl h
        · exact Or.inr (Or.inr h)

theorem assocSet_keys_nodup (k : ℕ) (v : List ℕ × List ℕ) :
    ∀ (t : List (ℕ × List ℕ × List ℕ)), (t.map Prod.fst).Nodup →
      ((SCP.assocSet k v t).map Prod.fst).Nodup := by
  intro t
  induction t with
  | nil =>
    intro _
    simp [SCP.assocSet]
  | cons q t ih =>
    intro hnd
    rw [List.map_cons, List.nodup_cons] at hnd
    unfold SCP.assocSet
    by_cases hk : q.1 = k
    · rw [if_pos hk]
      rw [List.map_cons, List.nodup_cons]
      exact ⟨by rw [← hk]; exact hnd.1, hnd.2⟩
    · rw [if_neg hk]
      rw [List.map_cons, List.nodup_cons]
      refine ⟨?_, ih hnd.2⟩
      intro hc
      rcases (mem_keys_assocSet k v t q.1).mp hc with h1 | h1
      · exact hk h1
      · exact hnd.1 h1

theorem reachable_WF : ∀ c, EmitReachable c → c = SCP.init ∨ CodecWF c := by
  intro c h
  induction h with
  | init => exact Or.inl rfl
  | step c c2 cyl side fl hre hok ih =>
    right
    obtain ⟨td, nr, hnre, hnr1, h2nr, hleg, hdisj, hWF, htt⟩ :=
      emit_track_shape c cyl side fl c2 hok
    rcases ih with hinit | hwf
    · subst hinit
      refine ⟨by rw [hleg]; rfl, ⟨nr, h2nr, hnr1, ?_⟩, ?_⟩
      · intro p hp
        rw [htt] at hp
        rcases mem_assocSet _ _ _ _ hp with h1 | h1
        · rw [h1]
          exact hWF
        · exact absurd h1 (by simp [SCP.init])
      · rw [htt]
        exact assocSet_keys_nodup _ _ _ (by simp [SCP.init])
    · obtain ⟨hl, ⟨r, hr, hr1, htr⟩, hnd⟩ := hwf
      have hrnr : r = nr := by
        rcases hdisj with h1 | h1 | h1
        · rw [h1] at hr
          exact Option.noConfusion hr
        · rw [h1] at hr
          have := Option.some.inj hr
          omega
        · rw [h1] at hr
          have := Option.some.inj hr
          omega
      refine ⟨by rw [hleg]; exact hl, ⟨nr, h2nr, hnr1, ?_⟩, ?_⟩
      · intro p hp
        rw [htt] at hp
        rcases mem_assocSet _ _ _ _ hp with h1 | h1
        · rw [h1]
          exact hWF
        · rw [← hrnr]
          exact htr p h1
      · rw [htt]
        exact assocSet_keys_nodup _ _ _ hnd

theorem pySlice_eval {α : Type} (l : List α) (a b : ℤ) (ha : 0 ≤ a) (hab : a ≤ b)
    (hbl : b.toNat ≤ l.length) :
    pySlice l a b = (l.drop a.toNat).take (b.toNat - a.toNat) := by
  unfold pySlice pyIdx
  rw [if_neg (by omega), if_neg (by omega),
      min_eq_left (by omega), min_eq_left (by omega)]

theorem pySlice_neg_eval {α : Type} (l : List α) (a : ℤ) (ha : a < 0)
    (hal : 0 ≤ (l.length : ℤ) + a) :
    pySlice l a (l.length : ℤ) = l.drop ((l.length : ℤ) + a).toNat := by
  unfold pySlice pyIdx
  rw [if_pos ha, if_neg (by omega), min_eq_left (by omega)]
  exact List.take_of_length_le (by rw [List.length_drop]; omega)

theorem u32flat_length (vals : List ℕ) :
    ((vals.map u32le).flatten).length = 4 * vals.length := by
  induction vals with
  | nil => rfl
  | cons v vs ih =>
    simp only [List.map_cons, List.flatten_cons, List.length_append, ih, u32le_length,
      List.length_cons]
    ring

theorem u32flat_read (vals : List ℕ) :
    ∀ (j : ℕ) (rest : List ℕ), (∀ v ∈ vals, v < 4294967296) → j < vals.length →
    readU32 ((vals.map u32le).flatten ++ rest) (4 * j) = vals.getD j 0 := by
  induction vals with
  | nil =>
    intro j rest _ hj
    exact absurd hj (by simp)
  | cons v vs ih =>
    intro j rest hv hj
    simp only [List.map_cons, List.flatten_cons, List.append_assoc]
    cases j with
    | zero =>
      unfold readU32
      rw [Nat.mul_zero, List.drop_zero]
      exact bytesToU32_u32le_append v (hv v (by simp)) _
    | succ k =>
      rw [readU32_append_right _ _ _ (by rw [u32le_length]; omega)]
      rw [show 4 * (k + 1) - (u32le v).length = 4 * k from by rw [u32le_length]; ring_nf; omega]
      rw [List.getD_cons_succ]
      exact ih k rest (fun w hw => hv w (by simp [hw])) (by simpa using hj)

theorem readU32_replicate_zero (m i : ℕ) :
    readU32 (List.replicate m 0) i = 0 := by
  unfold readU32
  rw [List.drop_replicate]
  exact bytesToU32_replicate_zero _

theorem buildLoop_eq (t : List (ℕ × List ℕ × List ℕ)) :
    ∀ (n tnr : ℕ) (offs dat : List ℕ) (res : List ℕ × List ℕ),
      SCP.buildLoop t n tnr offs dat = .ok res →
      res.1 = offs ++ ((offVals t n tnr dat.length).map u32le).flatten ∧
      res.2 = dat ++ recs t n tnr ∧
      (∀ v ∈ offVals t n tnr dat.length, v < 4294967296 ∧ (v = 0 ∨ 0x2b0 ≤ v)) := by
  intro n
  induction n with
  | zero =>
    intro tnr offs dat res h
    have hres := Except.ok.inj h
    refine ⟨?_, ?_, ?_⟩
    · rw [← hres]
      simp [offVals]
    · rw [← hres]
      simp [recs]
    · intro v hv
      exact absurd hv (by simp [offVals])
  | succ n ih =>
    intro tnr offs dat res h
    unfold SCP.buildLoop at h
    split at h
    · rename_i v0 tdh d heq
      have hov : offVals t (n + 1) tnr dat.length =
          (0x2b0 + dat.length) ::
            offVals t n (tnr + 1) (dat.length + (4 + tdh.length + d.length)) := by
        simp only [offVals, heq]
      have hrec : recs t (n + 1) tnr =
          ([84, 82, 75, tnr] ++ tdh ++ d) ++ recs t n (tnr + 1) := by
        simp only [recs, heq]
      split at h
      · exact Except.noConfusion h
      · split at h
        · exact Except.noConfusion h
        · rename_i h255 hlt
          obtain ⟨h1, h2, h3⟩ := ih (tnr + 1) _ _ res h
          have hdl : (dat ++ [84, 82, 75, tnr] ++ tdh ++ d).length =
              dat.length + (4 + tdh.length + d.length) := by
            simp only [List.length_append, List.length_cons, List.length_nil]
            ring
          rw [hdl] at h1 h3
          refine ⟨?_, ?_, ?_⟩
          · rw [h1, hov]
            simp only [List.map_cons, List.flatten_cons, List.append_assoc]
          · rw [h2, hrec]
            simp only [List.append_assoc]
          · intro v hv
            rw [hov] at hv
            rcases List.mem_cons.mp hv with hv | hv
            · subst hv
              exact ⟨by omega, Or.inr (by omega)⟩
            · exact h3 v hv
    · rename_i heq
      have hov : offVals t (n + 1) tnr dat.length =
          0 :: offVals t n (tnr + 1) dat.length := by
        simp only [offVals, heq]
      have hrec : recs t (n + 1) tnr = recs t n (tnr + 1) := by
        simp only [recs, heq]
      obtain ⟨h1, h2, h3⟩ := ih (tnr + 1) _ _ res h
      refine ⟨?_, ?_, ?_⟩
      · rw [h1, hov]
        simp only [List.map_cons, List.flatten_cons, List.append_assoc]
      · rw [h2, hrec]
      · intro v hv
        rw [hov] at hv
        rcases List.mem_cons.mp hv with hv | hv
        · subst hv
          exact ⟨by omega, Or.inl rfl⟩
        · exact h3 v hv

theorem parseTracks_zeros (B : List ℕ) (r : ℤ) (ic : Bool) :
    ∀ (m tnr : ℕ), SCP.parseTracks B r ic tnr (List.replicate m 0) = .ok [] := by
  intro m
  induction m with
  | zero => intro tnr; rfl
  | succ k ih =>
    intro tnr
    rw [show List.replicate (k + 1) (0 : ℕ) = 0 :: List.replicate k 0 from rfl]
    unfold SCP.parseTracks
    rw [if_pos rfl]
    exact ih (tnr + 1)

theorem tlutScan_stable (offs : List ℕ) (hoffs : ∀ o ∈ offs, o = 0 ∨ 0x2b0 ≤ o) :
    ∀ (fuel i : ℕ), SCP.tlutScanAux fuel i offs = .ok offs := by
  intro fuel
  induction fuel with
  | zero => intro i; rfl
  | succ f ih =>
    intro i
    unfold SCP.tlutScanAux
    cases hg : offs.get? i with
    | none => rfl
    | some off =>
      have hmem := List.get?_mem hg
      dsimp only []
      rw [if_pos (hoffs off hmem)]
      exact ih (i + 1)

theorem parseTrack_rec (B : List ℕ) (r tnr dlen : ℕ) (tdh d rest : List ℕ)
    (hr1 : 1 ≤ r) (hWF : TrackWF r tdh d) (hdne : d ≠ [])
    (hdrop : B.drop (0x2b0 + dlen) = [84, 82, 75, tnr] ++ (tdh ++ (d ++ rest)))
    (hlen : B.length = 0x2b0 + dlen + (4 + (tdh.length + (d.length + rest.length)))) :
    SCP.parseTrack B (r : ℤ) true tnr (0x2b0 + dlen) = .ok (some (tdh, d)) := by
  obtain ⟨hlen12, htb, hdb, hde, hfirst, hlast⟩ := hWF
  have hdlen0 : d.length ≠ 0 := fun hc => hdne (List.length_eq_zero.mp hc)
  have hthdr : pySlice B ((0x2b0 + dlen : ℕ) : ℤ)
      (((0x2b0 + dlen : ℕ) : ℤ) + 4 + 12 * (r : ℤ)) = [84, 82, 75, tnr] ++ tdh := by
    rw [show ((0x2b0 + dlen : ℕ) : ℤ) + 4 + 12 * (r : ℤ) =
        ((0x2b0 + dlen + (4 + 12 * r) : ℕ) : ℤ) from by push_cast; ring]
    rw [pySlice_eval B _ _ (by omega) (by push_cast; omega)
        (by rw [Int.toNat_natCast]; omega)]
    rw [Int.toNat_natCast, Int.toNat_natCast, hdrop]
    rw [show 0x2b0 + dlen + (4 + 12 * r) - (0x2b0 + dlen) = 4 + 12 * r from by omega]
    rw [show (4 + 12 * r : ℕ) = [84, 82, 75, tnr].length + 12 * r from by simp]
    rw [List.take_append, ← hlen12, List.take_left]
  have hthdr_len : ([84, 82, 75, tnr] ++ tdh).length = 4 + 12 * r := by
    simp only [List.length_append, List.length_cons, List.length_nil, hlen12]
  have hdrop12 : ([84, 82, 75, tnr] ++ tdh).drop 12 = tdh.drop 8 := by
    rw [show (12 : ℕ) = [84, 82, 75, tnr].length + 8 from rfl, List.drop_append]
  have hsb : pySlice ([84, 82, 75, tnr] ++ tdh) (12 : ℤ) (12 + 4) =
      (tdh.drop 8).take 4 := by
    rw [show (12 : ℤ) + 4 = ((16 : ℕ) : ℤ) from by norm_num,
        show (12 : ℤ) = ((12 : ℕ) : ℤ) from by norm_num]
    rw [pySlice_eval _ _ _ (by omega) (by omega)
        (by rw [Int.toNat_natCast, hthdr_len]; omega)]
    rw [Int.toNat_natCast, Int.toNat_natCast, hdrop12]
  have hsb_len : ((tdh.drop 8).take 4).length = 4 := by
    rw [List.length_take, List.length_drop, hlen12]
    omega
  have hs_off : bytesToU32 ((tdh.drop 8).take 4) = 4 + 12 * r := by
    rw [bytesToU32_take _ _ (le_refl 4)]
    exact hfirst
  have heb : pySlice ([84, 82, 75, tnr] ++ tdh) (-12)
      ((([84, 82, 75, tnr] ++ tdh).length : ℤ)) = tdh.drop (12 * r - 12) := by
    rw [pySlice_neg_eval _ _ (by norm_num) (by rw [hthdr_len]; push_cast; omega)]
    rw [hthdr_len]
    rw [show (((4 + 12 * r : ℕ) : ℤ) + (-12)).toNat =
        [84, 82, 75, tnr].length + (12 * r - 12) from by simp; omega]
    rw [List.drop_append]
  have heb_len : (tdh.drop (12 * r - 12)).length = 12 := by
    rw [List.length_drop, hlen12]
    omega
  have he_nr : readU32 (tdh.drop (12 * r - 12)) 4 = readU32 tdh (12 * r - 8) := by
    rw [readU32_drop]
    congr 1
    omega
  have he_off8 : readU32 (tdh.drop (12 * r - 12)) 8 = readU32 tdh (12 * r - 4) := by
    rw [readU32_drop]
    congr 1
    omega
  have hdrop4 : ([84, 82, 75, tnr] ++ tdh).drop 4 = tdh := by
    rw [show (4 : ℕ) = [84, 82, 75, tnr].length + 0 from rfl, List.drop_append,
        List.drop_zero]
  have hdat : pySlice B (((0x2b0 + dlen : ℕ) : ℤ) + ((4 + 12 * r : ℕ) : ℤ))
      (((0x2b0 + dlen : ℕ) : ℤ) + ((4 + 12 * r + d.length : ℕ) : ℤ)) = d := by
    rw [show ((0x2b0 + dlen : ℕ) : ℤ) + ((4 + 12 * r : ℕ) : ℤ) =
        ((0x2b0 + dlen + (4 + 12 * r) : ℕ) : ℤ) from by push_cast; ring,
        show ((0x2b0 + dlen : ℕ) : ℤ) + ((4 + 12 * r + d.length : ℕ) : ℤ) =
        ((0x2b0 + dlen + (4 + 12 * r) + d.length : ℕ) : ℤ) from by push_cast; ring]
    rw [pySlice_eval _ _ _ (by omega) (by push_cast; omega)
        (by rw [Int.toNat_natCast]; omega)]
    rw [Int.toNat_natCast, Int.toNat_natCast]
    rw [show 0x2b0 + dlen + (4 + 12 * r) + d.length - (0x2b0 + dlen + (4 + 12 * r)) =
        d.length from by omega]
    rw [← List.drop_drop, hdrop]
    rw [show (4 + 12 * r : ℕ) = [84, 82, 75, tnr].length + 12 * r from by simp]
    rw [List.drop_append, ← hlen12, List.drop_left, List.take_left]
  unfold SCP.parseTrack
  dsimp only []
  rw [hthdr]
  rw [if_neg (by rw [hthdr_len]; omega)]
  rw [if_neg (show ¬¬(List.take 3 ([84, 82, 75, tnr] ++ tdh) = [84, 82, 75]) from
    not_not_intro rfl)]
  rw [if_neg (show ¬¬(([84, 82, 75, tnr] ++ tdh).getD 3 0 = tnr) from
    not_not_intro rfl)]
  rw [if_pos rfl]
  rw [hsb]
  rw [if_neg (not_not_intro hsb_len)]
  rw [heb]
  rw [if_neg (not_not_intro heb_len)]
  rw [hs_off, he_nr, he_off8]
  rw [show readU32 tdh (12 * r - 4) + readU32 tdh (12 * r - 8) * 2 =
      4 + 12 * r + d.length from by omega]
  rw [if_neg (by omega)]
  rw [hdat, hdrop4]

theorem parseTracks_rec (B : List ℕ) (t : List (ℕ × List ℕ × List ℕ)) (r : ℕ)
    (hr1 : 1 ≤ r)
    (htr : ∀ k v, SCP.lookupTrack k t = some v → TrackWF r v.1 v.2 ∧ v.2 ≠ []) :
    ∀ (n tnr dlen m : ℕ),
      B.length = 0x2b0 + dlen + (recs t n tnr).length →
      B.drop (0x2b0 + dlen) = recs t n tnr →
      SCP.parseTracks B (r : ℤ) true tnr
        (offVals t n tnr dlen ++ List.replicate m 0) = .ok (canonTracks t n tnr) := by
  intro n
  induction n with
  | zero =>
    intro tnr dlen m _ _
    rw [show offVals t 0 tnr dlen = [] from rfl, List.nil_append,
        show canonTracks t 0 tnr = [] from rfl]
    exact parseTracks_zeros B (r : ℤ) true m tnr
  | succ n ih =>
    intro tnr dlen m hlen hdrop
    cases hlk : SCP.lookupTrack tnr t with
    | none =>
      have hov : offVals t (n + 1) tnr dlen = 0 :: offVals t n (tnr + 1) dlen := by
        simp only [offVals, hlk]
      have hcan : canonTracks t (n + 1) tnr = canonTracks t n (tnr + 1) := by
        simp only [canonTracks, hlk]
      have hrec : recs t (n + 1) tnr = recs t n (tnr + 1) := by
        simp only [recs, hlk]
      rw [hov, List.cons_append]
      unfold SCP.parseTracks
      rw [if_pos rfl, hcan]
      exact ih (tnr + 1) dlen m (by rw [← hrec]; exact hlen) (by rw [← hrec]; exact hdrop)
    | some v =>
      obtain ⟨tdh, d⟩ := v
      obtain ⟨hWF, hdne⟩ := htr tnr (tdh, d) hlk
      have hov : offVals t (n + 1) tnr dlen = (0x2b0 + dlen) ::
          offVals t n (tnr + 1) (dlen + (4 + tdh.length + d.length)) := by
        simp only [offVals, hlk]
      have hcan : canonTracks t (n + 1) tnr =
          (tnr, (tdh, d)) :: canonTracks t n (tnr + 1) := by
        simp only [canonTracks, hlk]
      have hrec : recs t (n + 1) tnr =
          ([84, 82, 75, tnr] ++ tdh ++ d) ++ recs t n (tnr + 1) := by
        simp only [recs, hlk]
      have hdropB : B.drop (0x2b0 + dlen) =
          [84, 82, 75, tnr] ++ (tdh ++ (d ++ recs t n (tnr + 1))) := by
        rw [hdrop, hrec]
        simp only [List.append_assoc]
      have hlenB : B.length = 0x2b0 + dlen +
          (4 + (tdh.length + (d.length + (recs t n (tnr + 1)).length))) := by
        rw [hlen, hrec]
        simp only [List.length_append, List.length_cons, List.length_nil]
        omega
      have hpt := parseTrack_rec B r tnr dlen tdh d (recs t n (tnr + 1))
        hr1 hWF hdne hdropB hlenB
      rw [hov, List.cons_append]
      unfold SCP.parseTracks
      rw [if_neg (by omega), hpt, bind_ok_except]
      dsimp only []
      rw [ih (tnr + 1) (dlen + (4 + tdh.length + d.length)) m (by omega) ?hd]
      case hd =>
        rw [show 0x2b0 + (dlen + (4 + tdh.length + d.length)) =
            (0x2b0 + dlen) + (4 + tdh.length + d.length) from by ring]
        rw [← List.drop_drop, hdropB]
        rw [show 4 + tdh.length + d.length =
            [84, 82, 75, tnr].length + (tdh.length + d.length) from by
          simp only [List.length_cons, List.length_nil]
          omega]
        rw [List.drop_append]
        rw [show tdh.length + d.length = tdh.length + d.length from rfl]
        rw [List.drop_append]
        exact List.drop_left d _
      rw [bind_ok_except, hcan]

theorem lookup_mem : ∀ (t : List (ℕ × List ℕ × List ℕ)) (k : ℕ) (v : List ℕ × List ℕ),
    SCP.lookupTrack k t = some v → (k, v) ∈ t := by
  intro t
  induction t with
  | nil => intro k v h; exact Option.noConfusion h
  | cons q t ih =>
    intro k v h
    unfold SCP.lookupTrack at h
    by_cases hk : q.1 = k
    · rw [if_pos hk] at h
      have hv := Option.some.inj h
      rw [← hv, ← hk]
      exact List.mem_cons_self q t
    · rw [if_neg hk] at h
      exact List.mem_cons_of_mem _ (ih k v h)

theorem foldl_max_le_init : ∀ (t : List (ℕ × List ℕ × List ℕ)) (a : ℕ),
    a ≤ t.foldl (fun m p => max m p.1) a := by
  intro t
  induction t with
  | nil => intro a; exact le_refl a
  | cons q t ih =>
    intro a
    exact le_trans (le_max_left a q.1) (ih (max a q.1))

theorem mem_le_maxKey (t : List (ℕ × List ℕ × List ℕ)) (p : ℕ × List ℕ × List ℕ)
    (hp : p ∈ t) : p.1 ≤ SCP.maxKey t := by
  unfold SCP.maxKey
  have haux : ∀ (t2 : List (ℕ × List ℕ × List ℕ)) (a : ℕ), p ∈ t2 →
      p.1 ≤ t2.foldl (fun m p => max m p.1) a := by
    intro t2
    induction t2 with
    | nil => intro a h; exact absurd h (List.not_mem_nil p)
    | cons q t2 ih =>
      intro a h
      rcases List.mem_cons.mp h with h | h
      · rw [h]
        exact le_trans (le_max_right a q.1) (foldl_max_le_init t2 (max a q.1))
      · exact ih (max a q.1) h
  exact haux t 0 hp

theorem lookup_gt_maxKey (t : List (ℕ × List ℕ × List ℕ)) (k : ℕ)
    (h : SCP.maxKey t < k) : SCP.lookupTrack k t = none := by
  cases hx : SCP.lookupTrack k t with
  | none => rfl
  | some v =>
    have := mem_le_maxKey t (k, v) (lookup_mem t k v hx)
    dsimp only [] at this
    omega

theorem lookup_canon (t : List (ℕ × List ℕ × List ℕ)) :
    ∀ (n j k : ℕ), SCP.lookupTrack k (canonTracks t n j) =
      if j ≤ k ∧ k < j + n then SCP.lookupTrack k t else none := by
  intro n
  induction n with
  | zero =>
    intro j k
    rw [if_neg (by omega)]
    rfl
  | succ n ih =>
    intro j k
    cases hx : SCP.lookupTrack j t with
    | some w =>
      have hc : canonTracks t (n + 1) j = (j, w) :: canonTracks t n (j + 1) := by
        simp only [canonTracks, hx]
      rw [hc]
      rw [show SCP.lookupTrack k ((j, w) :: canonTracks t n (j + 1)) =
          if j = k then some w else SCP.lookupTrack k (canonTracks t n (j + 1)) from rfl]
      by_cases hjk : j = k
      · rw [if_pos hjk, if_pos (by omega)]
        subst hjk
        rw [hx]
      · rw [if_neg hjk, ih (j + 1) k]
        by_cases hcond : j ≤ k ∧ k < j + (n + 1)
        · rw [if_pos (by omega), if_pos hcond]
        · rw [if_neg (by omega), if_neg hcond]
    | none =>
      have hc : canonTracks t (n + 1) j = canonTracks t n (j + 1) := by
        simp only [canonTracks, hx]
      rw [hc, ih (j + 1) k]
      by_cases hjk : j = k
      · subst hjk
        rw [if_neg (by omega)]
        by_cases hcond : j ≤ j ∧ j < j + (n + 1)
        · rw [if_pos hcond, hx]
        · rw [if_neg hcond]
      · by_cases hcond : j ≤ k ∧ k < j + (n + 1)
        · rw [if_pos (by omega), if_pos hcond]
        · rw [if_neg (by omega), if_neg hcond]

theorem canon_cons_perm (k : ℕ) (v : List ℕ × List ℕ) (t : List (ℕ × List ℕ × List ℕ))
    (hk : ¬ k ∈ t.map Prod.fst) :
    ∀ (n j : ℕ), List.Perm (canonTracks ((k, v) :: t) n j)
      ((if j ≤ k ∧ k < j + n then [(k, v)] else []) ++ canonTracks t n j) := by
  intro n
  induction n with
  | zero =>
    intro j
    rw [if_neg (by omega)]
    exact List.Perm.refl _
  | succ n ih =>
    intro j
    have hlkt_none : SCP.lookupTrack k t = none := by
      cases hx : SCP.lookupTrack k t with
      | none => rfl
      | some w =>
        exact absurd (List.mem_map_of_mem Prod.fst (lookup_mem t k w hx)) hk
    by_cases hkj : k = j
    · subst hkj
      have hlk1 : SCP.lookupTrack k ((k, v) :: t) = some v := by
        rw [show SCP.lookupTrack k ((k, v) :: t) =
            if k = k then some v else SCP.lookupTrack k t from rfl, if_pos rfl]
      have hc1 : canonTracks ((k, v) :: t) (n + 1) k =
          (k, v) :: canonTracks ((k, v) :: t) n (k + 1) := by
        simp only [canonTracks, hlk1]
      have hct : canonTracks t (n + 1) k = canonTracks t n (k + 1) := by
        simp only [canonTracks, hlkt_none]
      rw [hc1, hct, if_pos (by omega), List.singleton_append]
      refine List.Perm.cons _ ?_
      have haux := ih (k + 1)
      rw [if_neg (by omega), List.nil_append] at haux
      exact haux
    · have hlk1 : SCP.lookupTrack j ((k, v) :: t) = SCP.lookupTrack j t := by
        rw [show SCP.lookupTrack j ((k, v) :: t) =
            if k = j then some v else SCP.lookupTrack j t from rfl, if_neg hkj]
      cases hx : SCP.lookupTrack j t with
      | some w =>
        have hc1 : canonTracks ((k, v) :: t) (n + 1) j =
            (j, w) :: canonTracks ((k, v) :: t) n (j + 1) := by
          simp only [canonTracks, hlk1, hx]
        have hct : canonTracks t (n + 1) j = (j, w) :: canonTracks t n (j + 1) := by
          simp only [canonTracks, hx]
        rw [hc1, hct]
        by_cases hcond : j ≤ k ∧ k < j + (n + 1)
        · rw [if_pos hcond]
          have haux := ih (j + 1)
          rw [if_pos (by omega)] at haux
          refine (haux.cons (j, w)).trans ?_
          rw [List.singleton_append, List.singleton_append]
          exact List.Perm.swap _ _ _
        · rw [if_neg hcond, List.nil_append]
          have haux := ih (j + 1)
          rw [if_neg (by omega), List.nil_append] at haux
          exact haux.cons (j, w)
      | none =>
        have hc1 : canonTracks ((k, v) :: t) (n + 1) j =
            canonTracks ((k, v) :: t) n (j + 1) := by
          simp only [canonTracks, hlk1, hx]
        have hct : canonTracks t (n + 1) j = canonTracks t n (j + 1) := by
          simp only [canonTracks, hx]
        rw [hc1, hct]
        by_cases hcond : j ≤ k ∧ k < j + (n + 1)
        · rw [if_pos hcond]
          have haux := ih (j + 1)
          rw [if_pos (by omega)] at haux
          exact haux
        · rw [if_neg hcond]
          have haux := ih (j + 1)
          rw [if_neg (by omega)] at haux
          exact haux

theorem canon_perm : ∀ (t : List (ℕ × List ℕ × List ℕ)) (n : ℕ),
    (t.map Prod.fst).Nodup → (∀ p ∈ t, p.1 < n) →
    List.Perm (canonTracks t n 0) t := by
  intro t
  induction t with
  | nil =>
    intro n _ _
    rw [canonTracks_nil]
  | cons q t ih =>
    intro n hnd hlt
    obtain ⟨k, v⟩ := q
    rw [List.map_cons, List.nodup_cons] at hnd
    have haux := canon_cons_perm k v t hnd.1 n 0
    rw [if_pos (by have := hlt (k, v) (List.mem_cons_self _ _); dsimp only [] at this; omega),
        List.singleton_append] at haux
    exact haux.trans ((ih n hnd.2 (fun p hp => hlt p (List.mem_cons_of_mem _ hp))).cons (k, v))

theorem foldl_perm {α β : Type} (f : β → α → β)
    (H : ∀ s a b, f (f s a) b = f (f s b) a) :
    ∀ {l₁ l₂ : List α}, l₁.Perm l₂ → ∀ s, l₁.foldl f s = l₂.foldl f s := by
  intro l₁ l₂ hp
  induction hp with
  | nil => intro s; rfl
  | cons x _ ih =>
    intro s
    simp only [List.foldl_cons]
    exact ih _
  | swap x y l =>
    intro s
    simp only [List.foldl_cons]
    rw [H]
  | trans _ _ ih1 ih2 =>
    intro s
    rw [ih1 s, ih2 s]

theorem buildLoop_congr (t1 t2 : List (ℕ × List ℕ × List ℕ))
    (hlk : ∀ k, SCP.lookupTrack k t1 = SCP.lookupTrack k t2) :
    ∀ (n tnr : ℕ) (offs dat : List ℕ),
      SCP.buildLoop t1 n tnr offs dat = SCP.buildLoop t2 n tnr offs dat := by
  intro n
  induction n with
  | zero => intro tnr offs dat; rfl
  | succ n ih =>
    intro tnr offs dat
    unfold SCP.buildLoop
    rw [hlk tnr]
    cases hx : SCP.lookupTrack tnr t2 with
    | none =>
      dsimp only []
      exact ih (tnr + 1) _ _
    | some v =>
      obtain ⟨tdh, d⟩ := v
      dsimp only []
      by_cases h255 : 255 < tnr
      · rw [if_pos h255, if_pos h255]
      · rw [if_neg h255, if_neg h255]
        by_cases hbig : 4294967296 ≤ 0x2b0 + dat.length
        · rw [if_pos hbig, if_pos hbig]
        · rw [if_neg hbig, if_neg hbig]
          exact ih (tnr + 1) _ _

theorem get_image_congr (c1 c2 : SCP.Codec) (hnr : c1.nr_revs = c2.nr_revs)
    (hl1 : c1.legacy_ss = false) (hl2 : c2.legacy_ss = false)
    (hsc : SCP.side_count c1.to_track = SCP.side_count c2.to_track)
    (hmk : SCP.maxKey c1.to_track = SCP.maxKey c2.to_track)
    (hlk : ∀ k, SCP.lookupTrack k c1.to_track = SCP.lookupTrack k c2.to_track) :
    SCP.get_image c1 = SCP.get_image c2 := by
  unfold SCP.get_image
  dsimp only []
  rw [hsc, hl1, hl2]
  simp only [Bool.false_eq_true, and_false, if_false]
  rw [hmk, hnr, buildLoop_congr c1.to_track c2.to_track hlk]

theorem from_file_canon (t : List (ℕ × List ℕ × List ℕ)) (r N ss csum : ℕ)
    (hr1 : 1 ≤ r) (hN : N ≤ 168)
    (htr : ∀ k v, SCP.lookupTrack k t = some v → TrackWF r v.1 v.2 ∧ v.2 ≠ [])
    (hvals : ∀ v ∈ offVals t N 0 0, v < 4294967296 ∧ (v = 0 ∨ 0x2b0 ≤ v)) :
    SCP.from_file ([83, 67, 80, 0, 128, r, 0, N - 1, 3, 0, ss, 0] ++
        (u32le csum ++ (((offVals t N 0 0).map u32le).flatten ++
          (List.replicate (0x2a0 - 4 * N) 0 ++ recs t N 0)))) =
      .ok ⟨some (r : ℤ), false, SCP.legacyFixup ss (canonTracks t N 0)⟩ := by
  have hflat : (((offVals t N 0 0).map u32le).flatten).length = 4 * N := by
    rw [u32flat_length, offVals_length]
  set X := u32le csum ++ (((offVals t N 0 0).map u32le).flatten ++
    (List.replicate (0x2a0 - 4 * N) 0 ++ recs t N 0)) with hX
  have hBlen : ([83, 67, 80, 0, 128, r, 0, N - 1, 3, 0, ss, 0] ++ X).length =
      688 + (recs t N 0).length := by
    rw [hX]
    simp only [List.length_append, List.length_cons, List.length_nil, u32le_length,
      List.length_replicate, u32flat_length, offVals_length]
    omega
  have hstep : ∀ Y : List ℕ,
      List.drop 672 ((((offVals t N 0 0).map u32le).flatten) ++
        (List.replicate (0x2a0 - 4 * N) 0 ++ Y)) = Y := by
    intro Y
    have hdl2 := @List.drop_append ℕ (((offVals t N 0 0).map u32le).flatten)
      (List.replicate (0x2a0 - 4 * N) 0 ++ Y) (672 - 4 * N)
    rw [show (((offVals t N 0 0).map u32le).flatten).length + (672 - 4 * N) = 672 from by
      rw [hflat]; omega] at hdl2
    rw [hdl2]
    have hdl3 := List.drop_left (List.replicate (0x2a0 - 4 * N) (0 : ℕ)) Y
    rw [List.length_replicate] at hdl3
    exact hdl3
  have hdropD : ([83, 67, 80, 0, 128, r, 0, N - 1, 3, 0, ss, 0] ++ X).drop 688 =
      recs t N 0 := by
    rw [hX]
    rw [show (688 : ℕ) = [83, 67, 80, 0, 128, r, 0, N - 1, 3, 0, ss, 0].length + 676 from by
      simp only [List.length_cons, List.length_nil]]
    rw [List.drop_append]
    rw [show (676 : ℕ) = (u32le csum).length + 672 from by rw [u32le_length]]
    rw [List.drop_append]
    exact hstep (recs t N 0)
  unfold SCP.from_file
  dsimp only []
  rw [if_neg (by rw [hBlen]; omega)]
  rw [if_neg (not_not_intro
    (show ([83, 67, 80, 0, 128, r, 0, N - 1, 3, 0, ss, 0] ++ X).take 3 = [83, 67, 80]
      from rfl))]
  rw [show ([83, 67, 80, 0, 128, r, 0, N - 1, 3, 0, ss, 0] ++ X).getD 5 0 = r from rfl]
  rw [show ([83, 67, 80, 0, 128, r, 0, N - 1, 3, 0, ss, 0] ++ X).getD 8 0 = 3 from rfl]
  rw [show ([83, 67, 80, 0, 128, r, 0, N - 1, 3, 0, ss, 0] ++ X).getD 10 0 = ss from rfl]
  rw [show (decide ((3 : ℕ) % 2 = 1 ∨ r = 1)) = true from rfl]
  rw [if_pos rfl]
  rw [if_neg (by rw [hBlen]; omega)]
  have htl : pySlice ([83, 67, 80, 0, 128, r, 0, N - 1, 3, 0, ss, 0] ++ X)
      (16 : ℤ) (0x2b0 : ℤ) = ((offVals t N 0 0).map u32le).flatten ++
      List.replicate (0x2a0 - 4 * N) 0 := by
    rw [pySlice_eval _ _ _ (by omega) (by omega)
      (by rw [show ((688 : ℤ)).toNat = 688 from rfl, hBlen]; omega)]
    rw [show ((16 : ℤ)).toNat = 16 from rfl, show ((688 : ℤ)).toNat = 688 from rfl]
    rw [show (688 - 16 : ℕ) = 672 from rfl]
    rw [hX]
    rw [show (16 : ℕ) = [83, 67, 80, 0, 128, r, 0, N - 1, 3, 0, ss, 0].length + 4 from by
      simp only [List.length_cons, List.length_nil]]
    rw [List.drop_append]
    have hd4 := List.drop_left (u32le csum) (((offVals t N 0 0).map u32le).flatten ++
      (List.replicate (0x2a0 - 4 * N) 0 ++ recs t N 0))
    rw [u32le_length] at hd4
    rw [hd4]
    have htk2 := @List.take_append ℕ (((offVals t N 0 0).map u32le).flatten)
      (List.replicate (0x2a0 - 4 * N) 0 ++ recs t N 0) (672 - 4 * N)
    rw [show (((offVals t N 0 0).map u32le).flatten).length + (672 - 4 * N) = 672 from by
      rw [hflat]; omega] at htk2
    rw [htk2]
    have htk3 := List.take_left (List.replicate (0x2a0 - 4 * N) (0 : ℕ)) (recs t N 0)
    rw [List.length_replicate] at htk3
    rw [htk3]
  rw [htl]
  have hto : (List.range 168).map (fun j =>
      readU32 (((offVals t N 0 0).map u32le).flatten ++
        List.replicate (0x2a0 - 4 * N) 0) (4 * j)) =
      offVals t N 0 0 ++ List.replicate (168 - N) 0 := by
    apply List.ext_getElem
    · simp only [List.length_map, List.length_range, List.length_append,
        List.length_replicate, offVals_length]
      omega
    · intro j h1 h2
      rw [List.getElem_map, List.getElem_range]
      by_cases hj : j < N
      · rw [List.getElem_append_left (by rw [offVals_length]; exact hj)]
        rw [← List.getD_eq_getElem (offVals t N 0 0) 0 (by rw [offVals_length]; exact hj)]
        exact u32flat_read (offVals t N 0 0) j _ (fun v hv => (hvals v hv).1)
          (by rw [offVals_length]; exact hj)
      · rw [List.getElem_append_right (by rw [offVals_length]; omega)]
        rw [List.getElem_replicate]
        rw [readU32_append_right _ _ _ (by rw [u32flat_length, offVals_length]; omega)]
        exact readU32_replicate_zero _ _
  rw [hto]
  rw [show SCP.tlutScan (offVals t N 0 0 ++ List.replicate (168 - N) 0) =
      .ok (offVals t N 0 0 ++ List.replicate (168 - N) 0) from
    tlutScan_stable _ (by
      intro o ho
      rcases List.mem_append.mp ho with ho | ho
      · exact (hvals o ho).2
      · exact Or.inl (List.eq_of_mem_replicate ho)) 168 0]
  rw [bind_ok_except]
  rw [parseTracks_rec ([83, 67, 80, 0, 128, r, 0, N - 1, 3, 0, ss, 0] ++ X) t r hr1 htr
    N 0 0 (168 - N) (by rw [hBlen])
    (by rw [show (0x2b0 + 0 : ℕ) = 688 from rfl]; exact hdropD)]
  rw [bind_ok_except]

theorem legacyFixup_noop (t canon : List (ℕ × List ℕ × List ℕ))
    (hsc : SCP.side_count canon = SCP.side_count t) :
    SCP.legacyFixup
      (if (SCP.side_count t).1 ≠ 0 ∧ (SCP.side_count t).2 ≠ 0 then 0
       else if (SCP.side_count t).1 ≠ 0 then 1 else 2) canon = canon := by
  unfold SCP.legacyFixup
  dsimp only []
  rw [hsc]
  by_cases hb : (SCP.side_count t).1 ≠ 0 ∧ (SCP.side_count t).2 ≠ 0
  · rw [if_pos hb]
    rw [if_neg (fun hc => hc.1 rfl)]
  · rw [if_neg hb]
    rw [if_neg (fun hc => hb hc.2)]

theorem side_count_perm (l1 l2 : List (ℕ × List ℕ × List ℕ)) (hp : l1.Perm l2) :
    SCP.side_count l1 = SCP.side_count l2 := by
  unfold SCP.side_count
  refine foldl_perm _ ?_ hp (0, 0)
  intro s a b
  by_cases ha : a.1 % 2 = 0 <;> by_cases hb : b.1 % 2 = 0 <;>
    simp [ha, hb]

theorem maxKey_perm (l1 l2 : List (ℕ × List ℕ × List ℕ)) (hp : l1.Perm l2) :
    SCP.maxKey l1 = SCP.maxKey l2 := by
  unfold SCP.maxKey
  refine foldl_perm _ ?_ hp 0
  intro s a b
  omega

/-- C1 amended: decode-then-encode is byte-exact for every image this
encoder produces from emit_track-populated codecs whose stored tracks all
have non-empty cell data.  (The counterexample shows the restriction is
necessary: a track whose flux has no transitions is stored with empty cell
data, encoded as a dummy all-header record, and silently dropped on
decode.) -/
theorem c1_roundtrip (c : SCP.Codec) (B : List ℕ)
    (hreach : EmitReachable c)
    (hne : ∀ p ∈ c.to_track, p.2.2 ≠ [])
    (himg : SCP.get_image c = .ok B) :
    reimage B = .ok B := by
  rcases reachable_WF c hreach with hinit | hwf
  · rw [hinit] at himg
    rw [show SCP.get_image SCP.init = .error "TypeError" from rfl] at himg
    exact Except.noConfusion himg
  obtain ⟨hleg, ⟨r, hnr, hr1, htrWF⟩, hnd⟩ := hwf
  have htr : ∀ k v, SCP.lookupTrack k c.to_track = some v →
      TrackWF r v.1 v.2 ∧ v.2 ≠ [] := by
    intro k v hkv
    have hm := lookup_mem _ _ _ hkv
    exact ⟨htrWF (k, v) hm, hne (k, v) hm⟩
  have himg2 := himg
  unfold SCP.get_image at himg2
  dsimp only [] at himg2
  rw [hleg] at himg2
  simp only [Bool.false_eq_true, and_false, if_false] at himg2
  rw [except_bind_ok] at himg2
  obtain ⟨⟨offs0, dat0⟩, hbl, himg2⟩ := himg2
  dsimp only [] at himg2
  split at himg2
  · exact Except.noConfusion himg2
  · rename_i hofflen
    rw [hnr] at himg2
    dsimp only [] at himg2
    split at himg2
    · exact Except.noConfusion himg2
    · rename_i hr255
      obtain ⟨ho1, ho2, ho3⟩ := buildLoop_eq c.to_track
        (SCP.maxKey c.to_track + 1) 0 [] [] (offs0, dat0) hbl
      dsimp only [] at ho1 ho2
      simp only [List.length_nil, List.nil_append] at ho1 ho2 ho3
      have hofflen4 : offs0.length = 4 * (SCP.maxKey c.to_track + 1) := by
        rw [ho1, u32flat_length, offVals_length]
      have hN168 : SCP.maxKey c.to_track + 1 ≤ 168 := by omega
      rw [Int.toNat_natCast] at himg2
      rw [ho1, ho2] at himg2
      rw [show (((offVals c.to_track (SCP.maxKey c.to_track + 1) 0 0).map
          u32le).flatten).length = 4 * (SCP.maxKey c.to_track + 1) from by
        rw [u32flat_length, offVals_length]] at himg2
      simp only [List.append_assoc] at himg2
      have hperm : List.Perm
          (canonTracks c.to_track (SCP.maxKey c.to_track + 1) 0) c.to_track := by
        refine canon_perm c.to_track (SCP.maxKey c.to_track + 1) hnd ?_
        intro p hp
        have := mem_le_maxKey c.to_track p hp
        omega
      have hscanon : SCP.side_count
          (canonTracks c.to_track (SCP.maxKey c.to_track + 1) 0) =
          SCP.side_count c.to_track := side_count_perm _ _ hperm
      unfold reimage
      rw [show SCP.from_file B = .ok ⟨some (r : ℤ), false,
          SCP.legacyFixup
            (if (SCP.side_count c.to_track).1 ≠ 0 ∧ (SCP.side_count c.to_track).2 ≠ 0
             then 0 else if (SCP.side_count c.to_track).1 ≠ 0 then 1 else 2)
            (canonTracks c.to_track (SCP.maxKey c.to_track + 1) 0)⟩ from by
        rw [← Except.ok.inj himg2]
        exact from_file_canon c.to_track r (SCP.maxKey c.to_track + 1) _ _
          hr1 hN168 htr ho3]
      rw [bind_ok_except]
      rw [legacyFixup_noop c.to_track _ hscanon]
      rw [get_image_congr
        ⟨some (r : ℤ), false, canonTracks c.to_track (SCP.maxKey c.to_track + 1) 0⟩ c
        hnr.symm rfl hleg hscanon (maxKey_perm _ _ hperm) ?hlk]
      · exact himg
      case hlk =>
        intro k
        rw [lookup_canon c.to_track (SCP.maxKey c.to_track + 1) 0 k]
        by_cases hk : k < SCP.maxKey c.to_track + 1
        · rw [if_pos (by omega)]
        · rw [if_neg (by omega)]
          rw [lookup_gt_maxKey c.to_track k (by omega)]

theorem emit_cell_flux :
    SCP.emit_track SCP.init 0 0 ⟨[8000000], [65536], 40000000⟩ = .ok c1bcodec := by
  have hq : (([8000000] : List ℚ).getD 0 0) * (SCP.sample_freq / 40000000) =
      ((8000000 : ℤ) : ℚ) := by
    norm_num [SCP.sample_freq, List.getD_cons_zero]
  have h1 : (65536 : ℚ) * (SCP.sample_freq / 40000000) + 0 = ((65536 : ℤ) : ℚ) := by
    norm_num [SCP.sample_freq]
  have h65 : 0 ≤ pyRound ((65536 : ℚ) * (SCP.sample_freq / 40000000) + 0) := by
    rw [h1, pyRound_intCast]
    norm_num
  have hval : scpVal (SCP.sample_freq / 40000000) 0 65536 = 65537 := by
    unfold scpVal
    rw [h1, pyRound_intCast]
    norm_num
  have hcell : SCP.scpCell (SCP.sample_freq / 40000000) 0 65536 =
      .ok ([0, 0, 0, 1], -1) := by
    rw [scpCell_eq _ 0 65536 h65, hval]
    simp only [Except.ok.injEq, Prod.mk.injEq]
    constructor
    · rfl
    · rw [h1]
      push_cast
      norm_num
  have hcross : SCP.crossLoop [8000000] 1 (SCP.sample_freq / 40000000) 65536 2
      ⟨[], [], 0, 0, 8000000, 0⟩ = .ok (.inr ⟨[], [], 0, 0, 8000000, 0⟩) := by
    unfold SCP.crossLoop
    dsimp only []
    rw [if_neg (by norm_num)]
  have hloop : SCP.emitLoop [8000000] 1 (SCP.sample_freq / 40000000) [65536]
      ⟨[], [], 0, 0, 8000000, 0⟩ =
      .ok (.inr ⟨[], [0, 0, 0, 1], 0, 0, 8000000 - 65536, -1⟩) := by
    unfold SCP.emitLoop
    rw [hcross, bind_ok_except]
    dsimp only []
    rw [hcell, bind_ok_except]
    dsimp only []
    rfl
  have e2 : SCP.tailLoop [8000000] 1 (SCP.sample_freq / 40000000) 1
      ⟨[], [0, 0, 0, 1], 0, 0, 8000000 - 65536, -1⟩ =
      .ok (u32le 8000000 ++ u32le 2 ++ u32le 16, [0, 0, 0, 1]) := by
    unfold SCP.tailLoop SCP.packRev
    dsimp only []
    rw [hq, pyRound_intCast]
    rfl
  unfold SCP.emit_track
  dsimp only []
  rw [if_pos (Or.inl rfl : SCP.init.nr_revs = none ∨ SCP.init.nr_revs = some 0)]
  simp only [bind_pure_except, bind_ok_except]
  rw [show (([8000000] : List ℚ)).length = 1 from rfl]
  rw [hloop]
  simp only [bind_ok_except]
  rw [e2]
  simp only [bind_ok_except]
  rfl

theorem c1_roundtrip_witness : reimage imgC1b = .ok imgC1b :=
  c1_roundtrip c1bcodec imgC1b
    (EmitReachable.step SCP.init c1bcodec 0 0 ⟨[8000000], [65536], 40000000⟩
      EmitReachable.init emit_cell_flux)
    (by decide)
    (by rfl)

end GW
